import Mathlib

/-!
Verification development for the nirvati app manager's configuration engine.

Each Rust source file of the repository that the claims touch is embedded
shallowly: pure Rust functions become Lean functions over Lean counterparts of
the Rust data types, fallible functions (and functions whose Rust original can
panic) return `Except String`, and the effectful install controller is embedded
as a pure function producing the trace of external operations it performs.
Machine integers (`u16` ports) are modelled as `Nat`; the code never relies on
wrap-around.  Rust's stable `sort_by` is modelled by `List.insertionSort`,
which is also stable, so both denote the same function of the input list.
-/

namespace Nirvati

/-
Rust `String` ordering (`str::cmp`) is lexicographic byte order; on the ASCII
identifiers compared by this code that is lexicographic order on the character
lists, modelled by `charListLe` (cmp ≠ Greater) and `charListLt` (cmp = Less).
-/

def charListLe : List Char → List Char → Bool
  | [], _ => true
  | _ :: _, [] => false
  | a :: as, b :: bs => if a < b then true else if b < a then false else charListLe as bs

def charListLt : List Char → List Char → Bool
  | [], [] => false
  | [], _ :: _ => true
  | _ :: _, [] => false
  | a :: as, b :: bs => if a < b then true else if b < a then false else charListLt as bs

def strLe (a b : String) : Bool := charListLe a.data b.data

def strLt (a b : String) : Bool := charListLt a.data b.data

/-- Rust `Vec::contains` / `slice::contains` on string vectors (element `==`). -/
def strContains (l : List String) (s : String) : Bool := l.any (fun t => t = s)

/-! ### src/manage/ports.rs -/

inductive PortPriority where
  | Optional
  | Recommended
  | Required
deriving DecidableEq

/-- The `repr(u8)` discriminant; `derive(PartialOrd, Ord)` compares it. -/
def PortPriority.toNat : PortPriority → Nat
  | .Optional => 0
  | .Recommended => 1
  | .Required => 2

/-- Rust `entry.priority > other.priority`. -/
def PortPriority.gtB (a b : PortPriority) : Bool := b.toNat < a.toNat

structure PortMapEntry where
  app : String
  internal_port : Nat
  public_port : Nat
  container : String
  implements : Option String
  priority : PortPriority
deriving DecidableEq

def RESERVED_PORTS : List Nat := [80, 443]

def reservedB (p : Nat) : Bool := RESERVED_PORTS.any (fun q => q == p)

/--
The resolver's `HashMap<u16, PortMapEntry>` as an association list with
distinct keys.  A `HashMap`'s value-iteration order is arbitrary in Rust; the
development only states order-insensitive facts about the cache contents, and
the final table is sorted anyway.
-/
abbrev PortCache := List (Nat × PortMapEntry)

/-- `cache.insert(k, v)` (replaces any previous binding of `k`). -/
def cacheInsert (cache : PortCache) (k : Nat) (v : PortMapEntry) : PortCache :=
  (k, v) :: cache.filter (fun kv => kv.1 != k)

/-- `cache.contains_key(&k)`. -/
def cacheContainsKey (cache : PortCache) (k : Nat) : Bool :=
  cache.any (fun kv => kv.1 == k)

/-- `cache.get(&k).cloned()`. -/
def cacheGet (cache : PortCache) (k : Nat) : Option PortMapEntry :=
  (cache.find? (fun kv => kv.1 == k)).map Prod.snd

/-- `cache.retain(|_, v| v.app != app)`. -/
def cacheRetainAppNe (cache : PortCache) (app : String) : PortCache :=
  cache.filter (fun kv => kv.2.app != app)

/-- An upper bound on every key of the cache and on both reserved ports;
termination measure of the probing loop. -/
def cacheKeysBound (cache : PortCache) : Nat :=
  cache.foldr (fun kv m => max kv.1 m) 443

/-- The bump loop
`while cache.contains_key(&new_port) || RESERVED_PORTS.contains(&new_port) { new_port += 1; }`. -/
def probePort (cache : PortCache) (p : Nat) : Nat :=
  if h : (cacheContainsKey cache p || reservedB p) = true then
    probePort cache (p + 1)
  else p
termination_by cacheKeysBound cache + 1 - p
decreasing_by
  have hbase : ∀ c : PortCache, 443 ≤ cacheKeysBound c := by
    intro c
    induction c with
    | nil => simp [cacheKeysBound]
    | cons hd tl ih =>
      simp only [cacheKeysBound, List.foldr_cons] at *
      omega
  have hkey : ∀ (c : PortCache) (kv : Nat × PortMapEntry), kv ∈ c → kv.1 ≤ cacheKeysBound c := by
    intro c
    induction c with
    | nil => simp
    | cons hd tl ih =>
      intro kv hkv
      simp only [cacheKeysBound, List.foldr_cons]
      rcases List.mem_cons.mp hkv with h | h
      · subst h; omega
      · have := ih kv h
        simp only [cacheKeysBound] at this
        omega
  have hple : p ≤ cacheKeysBound cache := by
    simp only [Bool.or_eq_true, cacheContainsKey, reservedB, List.any_eq_true,
      beq_iff_eq, RESERVED_PORTS] at h
    rcases h with ⟨kv, hmem, hk⟩ | ⟨q, hq, hqp⟩
    · have := hkey cache kv hmem
      omega
    · have := hbase cache
      simp only [List.mem_cons, List.not_mem_nil, or_false, List.mem_singleton] at hq
      rcases hq with rfl | rfl <;> omega
  omega

structure ResolveState where
  cache : PortCache
  implementation_cache : List PortMapEntry
  apps_with_conflicts : List String
deriving DecidableEq

/-- Move `e` to the next free port and claim it (`new_entry` insertion). -/
def moveToFreePort (cache : PortCache) (e : PortMapEntry) : PortCache :=
  let new_port := probePort cache e.public_port
  cacheInsert cache new_port { e with public_port := new_port }

/-- The body of the resolver's `for entry in entries` loop. -/
def handleEntry (st : ResolveState) (entry : PortMapEntry) : ResolveState :=
  if strContains st.apps_with_conflicts entry.app then st
  else if reservedB entry.public_port then
    if entry.priority = .Required then
      { st with
        apps_with_conflicts := st.apps_with_conflicts ++ [entry.app],
        cache := cacheRetainAppNe st.cache entry.app }
    else
      { st with cache := moveToFreePort st.cache entry }
  else
    match cacheGet st.cache entry.public_port with
    | some other =>
      if entry = other then st
      else if entry.implements.isSome && other.implements.isSome &&
          entry.implements == other.implements && entry.priority == other.priority &&
          entry.priority == PortPriority.Required then
        { st with implementation_cache := st.implementation_cache ++ [entry] }
      else if entry.priority.gtB other.priority then
        { st with cache := cacheInsert (moveToFreePort st.cache other) entry.public_port entry }
      else if entry.priority = .Required then
        { st with
          apps_with_conflicts := st.apps_with_conflicts ++ [entry.app],
          cache := cacheRetainAppNe st.cache entry.app }
      else if entry.priority = other.priority then
        if strLt entry.app other.app then
          { st with cache := cacheInsert (moveToFreePort st.cache other) entry.public_port entry }
        else
          { st with cache := moveToFreePort st.cache entry }
      else
        { st with cache := moveToFreePort st.cache entry }
    | none => { st with cache := cacheInsert st.cache entry.public_port entry }

/-- The resolver's processing order: installed apps first, then the rest, each
group alphabetically (the `entries.sort_by(..)` comparator, as `cmp ≠ Greater`). -/
def portOrderLeB (installed_apps : List String) (a b : PortMapEntry) : Bool :=
  let a_installed := strContains installed_apps a.app
  let b_installed := strContains installed_apps b.app
  if a_installed && !b_installed then true
  else if !a_installed && b_installed then false
  else strLe a.app b.app

def portOrderLe (installed_apps : List String) (a b : PortMapEntry) : Prop :=
  portOrderLeB installed_apps a b = true

instance (installed_apps : List String) : DecidableRel (portOrderLe installed_apps) :=
  fun a b => by unfold portOrderLe; infer_instance

/-- Final `result.sort_by`: by public port, app id breaking ties (`cmp ≠ Greater`). -/
def finalOrderLeB (a b : PortMapEntry) : Bool :=
  if a.public_port == b.public_port then strLe a.app b.app
  else decide (a.public_port < b.public_port)

def finalOrderLe (a b : PortMapEntry) : Prop := finalOrderLeB a b = true

instance : DecidableRel finalOrderLe := fun a b => by unfold finalOrderLe; infer_instance

/-- `resolve_port_conflicts` (src/manage/ports.rs, lines 48-164).
Returns `(sorted_entries, apps_with_conflicts)`. -/
def resolve_port_conflicts (entries : List PortMapEntry) (installed_apps : List String) :
    List PortMapEntry × List String :=
  let entries := List.insertionSort (portOrderLe installed_apps) entries
  let st := entries.foldl handleEntry ⟨[], [], []⟩
  let result := st.cache.map Prod.snd ++ st.implementation_cache
  (List.insertionSort finalOrderLe result, st.apps_with_conflicts)

/-- Invariant of the resolver's cache: values record the key as their public
port, keys are distinct (it is a map), and no key is a reserved port. -/
structure CacheInv (cache : PortCache) : Prop where
  portEqKey : ∀ kv ∈ cache, (Prod.snd kv).public_port = kv.1
  keysNodup : (cache.map Prod.fst).Nodup
  keysNotReserved : ∀ kv ∈ cache, reservedB kv.1 = false

/-- Every implementation-sharing row was pushed as a Required request with a
non-empty implements tag on a non-reserved port. -/
def ImplInv (l : List PortMapEntry) : Prop :=
  ∀ e ∈ l, e.priority = PortPriority.Required ∧ e.implements.isSome = true ∧
    reservedB e.public_port = false

def StInv (st : ResolveState) : Prop :=
  CacheInv st.cache ∧ ImplInv st.implementation_cache

/-- Input refuting global public-port uniqueness: app1 shares port 5000 between
two Required rows implementing "x" (the second lands in the implementation
cache), app1 is then conflicted by a Required reserved-port request (which
evicts only its cache rows), and app3 re-claims the freed port 5000. -/
def c2CexEntries : List PortMapEntry :=
  [⟨"app1", 1, 5000, "c1", some "x", .Required⟩,
   ⟨"app1", 2, 5000, "c2", some "x", .Required⟩,
   ⟨"app1", 3, 80, "c3", none, .Required⟩,
   ⟨"app3", 4, 5000, "c4", none, .Optional⟩]

/-! ### src/dependencies.rs -/

structure Node where
  id : String
  dependencies : List String
deriving DecidableEq

/-- The determinism sort `nodes.sort_by(|a, b| a.id.cmp(&b.id))` (cmp ≠ Greater). -/
def nodeIdLe (a b : Node) : Prop := strLe a.id b.id = true

instance : DecidableRel nodeIdLe := fun a b => by unfold nodeIdLe; infer_instance

/-- `node.dependencies.retain(|dep| !sorted.contains(dep))`. -/
def stripNode (sorted : List String) (n : Node) : Node :=
  { n with dependencies := n.dependencies.filter (fun d => !(strContains sorted d)) }

/-- One step of the per-pass `filter_map`: strip the node against the sorted
ids accumulated so far (including ids emitted earlier in the same pass), emit
it when no dependencies remain, keep it otherwise. -/
def passFold (acc : List String × List Node) (node : Node) : List String × List Node :=
  let node := stripNode acc.1 node
  if node.dependencies.isEmpty then (acc.1 ++ [node.id], acc.2)
  else (acc.1, acc.2 ++ [node])

def sortPass (sorted : List String) (nodes : List Node) : List String × List Node :=
  nodes.foldl passFold (sorted, [])

/-- The `while !nodes.is_empty()` loop: run a pass; if it emitted nothing
(`nodes_changed_in_this_pass == 0`, i.e. as many nodes remain as before), warn
about circular dependencies and break, returning the order built so far. -/
def sortLoop (sorted : List String) (nodes : List Node) : List String :=
  if nodes.isEmpty then sorted
  else
    let p := sortPass sorted nodes
    if _h : p.2.length < nodes.length then sortLoop p.1 p.2
    else p.1
termination_by nodes.length

/-- The initial phase: emit every node whose dependency list is empty (without
stripping), keep the rest, in the id-sorted order. -/
def initFold (acc : List String × List Node) (node : Node) : List String × List Node :=
  if node.dependencies.isEmpty then (acc.1 ++ [node.id], acc.2)
  else (acc.1, acc.2 ++ [node])

/-- `sort_deps` (src/dependencies.rs, lines 7-60). -/
def sort_deps (nodes : List Node) : List String :=
  let nodes := List.insertionSort nodeIdLe nodes
  let init := nodes.foldl initFold ([], [])
  sortLoop init.1 init.2

/-- An id is grounded when it names a node all of whose dependencies are
(hereditarily) grounded ids.  The orderer emits exactly the grounded ids. -/
inductive Grounded (nodes : List Node) : String → Prop where
  | intro (n : Node) (hn : n ∈ nodes) (hdeps : ∀ d ∈ n.dependencies, Grounded nodes d) :
      Grounded nodes n.id

/-- The dependency edge relation: `x`'s node lists `y` as a dependency. -/
def Edge (nodes : List Node) (x y : String) : Prop :=
  ∃ n ∈ nodes, n.id = x ∧ y ∈ n.dependencies

/-- Nonempty dependency paths. -/
def Reaches (nodes : List Node) : String → String → Prop :=
  Relation.TransGen (Edge nodes)

/-- Acyclic input (no node set contains "b") on which `sort_deps` drops "a":
its dependency "b" names no node, so "a" is never emitted. -/
def c3CexNodes : List Node := [⟨"a", ["b"]⟩]

/-- Loop invariant of the orderer, relating the emitted ids `sorted` and the
remaining (already partially stripped) nodes `rem` to the original input `N`. -/
structure KahnInv (N : List Node) (sorted : List String) (rem : List Node) : Prop where
  sortedNodup : sorted.Nodup
  sortedGrounded : ∀ x ∈ sorted, Grounded N x
  sortedOrdered : ∀ n ∈ N, ∀ i, ∀ h : i < sorted.length, sorted.get ⟨i, h⟩ = n.id →
    ∀ d ∈ n.dependencies, d ∈ sorted.take i
  remOrig : ∀ m ∈ rem, ∃ n ∈ N, n.id = m.id ∧ m.dependencies ⊆ n.dependencies ∧
    ∀ d ∈ n.dependencies, d ∉ m.dependencies → d ∈ sorted
  remNodup : (rem.map Node.id).Nodup
  remFresh : ∀ m ∈ rem, m.id ∉ sorted
  cover : ∀ n ∈ N, n.id ∈ sorted ∨ n.id ∈ rem.map Node.id

/-- What the orderer guarantees of its output: no duplicates, every emitted id
grounded, dependencies of an emitted node emitted strictly before it, and
saturation (a node is emitted unless one of its dependencies is not). -/
def SortedOut (N : List Node) (out : List String) : Prop :=
  out.Nodup ∧ (∀ x ∈ out, Grounded N x) ∧
    (∀ n ∈ N, ∀ i, ∀ h : i < out.length, out.get ⟨i, h⟩ = n.id →
      ∀ d ∈ n.dependencies, d ∈ out.take i) ∧
    (∀ n ∈ N, n.id ∈ out ∨ ∃ d ∈ n.dependencies, d ∉ out)

/-! ### src/composegenerator/types.rs -/

/-- `serde_json::Value`.  Arrays and objects, and the distinction between
integer and floating-point numbers, are never inspected by the embedded code
(values are only moved around, or read back with `as_str`), so array/object
payloads are elided and numbers carry an `Int`. -/
inductive JValue where
  | str (s : String)
  | number (n : Int)
  | bool (b : Bool)
  | null
  | arr
  | obj
deriving DecidableEq

/-- `Value::as_str`. -/
def JValue.asStr : JValue → Option String
  | .str s => some s
  | _ => none

/-- `Permission` (composegenerator/types.rs, lines 45-70); the Rust field
`variables` (a `BTreeMap<String, Value>`, embedded as its entry list in key
order) is named `vars` here because `variables` is a Lean keyword. -/
structure Permission where
  id : String
  name : String
  description : String
  includes : List String
  vars : List (String × JValue)
  files : List String
  hidden : Bool
deriving DecidableEq

/-! ### src/composegenerator/v1/helpers.rs -/

/-- The tie-break sort `a.includes.len().cmp(&b.includes.len()).then(a.id.cmp(&b.id))`
as `cmp ≠ Greater`. -/
def permMatchLeB (a b : Permission) : Bool :=
  if a.includes.length < b.includes.length then true
  else if b.includes.length < a.includes.length then false
  else strLe a.id b.id

def permMatchLe (a b : Permission) : Prop := permMatchLeB a b = true

instance : DecidableRel permMatchLe := fun a b => by unfold permMatchLe; infer_instance

/-- `find_permission_that_matches` (composegenerator/v1/helpers.rs, lines 5-33). -/
def find_permission_that_matches (app_name : String) (perms : List Permission)
    (current_permissions : List String) (check : Permission → Bool) : Option Permission :=
  let perms_that_expose_this_var := perms.filter check
  if perms_that_expose_this_var.isEmpty then none
  else if perms_that_expose_this_var.length = 1 then perms_that_expose_this_var.head?
  else
    match perms_that_expose_this_var.find?
        (fun perm => strContains current_permissions (app_name ++ "/" ++ perm.id)) with
    | some p => some p
    | none => (List.insertionSort permMatchLe perms_that_expose_this_var).head?

/-- The spec's words, for comparison with the code: one resolution step of the
transitive `includes` closure within one app's capability list. -/
def specIncludesStep (perms : List Permission) (ids : List String) : List String :=
  (ids ++ ids.bind (fun i =>
    match perms.find? (fun p => p.id = i) with
    | some q => q.includes
    | none => [])).dedup

/-- The spec's "transitive `includes`" of a capability: the closure of its
includes list under `specIncludesStep` (stationary after `perms.length` steps). -/
def specTransitiveIncludes (perms : List Permission) (p : Permission) : List String :=
  (specIncludesStep perms)^[perms.length] p.includes.dedup

/-- Candidates refuting the "fewest transitive includes" reading: capability
"aa" has one direct include ("b", which itself includes three more ids), "bb"
has two direct includes with no further expansion.  Both expose file "f". -/
def c6A : Permission := ⟨"aa", "", "", ["b"], [], ["f"], false⟩

def c6B : Permission := ⟨"bb", "", "", ["x1", "x2"], [], ["f"], false⟩

def c6Perms : List Permission :=
  [c6A, c6B, ⟨"b", "", "", ["c", "d", "e"], [], [], false⟩]

/-! ### src/tera.rs: assign_permission -/

/-- `serde_json::Map` keyed lookup (`contains_key`). -/
def jmapContainsKey (map : List (String × JValue)) (k : String) : Bool :=
  map.any (fun kv => kv.1 = k)

/-- `serde_json::Map::insert`: replaces any existing binding and returns the
old value (`None` when the key was absent). -/
def jmapInsert (map : List (String × JValue)) (k : String) (v : JValue) :
    Option JValue × List (String × JValue) :=
  match map.find? (fun kv => kv.1 = k) with
  | some kv => (some kv.2, map.map (fun kv2 => if kv2.1 = k then (k, v) else kv2))
  | none => (none, map ++ [(k, v)])

/-- The variable-merge loop of `assign_permission` (src/tera.rs, lines
110-116): for each variable, warn when the key is already present, then
`assert!(map.insert(..).is_none())` — the assertion fires exactly when the
warning was logged, so a duplicate key panics; the panic is modelled as
`Except.error`. -/
def assignVars (map : List (String × JValue)) (vars : List (String × JValue)) :
    Except String (List (String × JValue)) :=
  match vars with
  | [] => .ok map
  | kv :: rest =>
    let r := jmapInsert map kv.1 kv.2
    if r.1.isSome then .error "assertion failed: map.insert(key, value).is_none()"
    else assignVars r.2 rest

/-- `assign_permission` (src/tera.rs, lines 102-145).  The Rust recursion
terminates because the `handled_values` list grows along every recursive
call; the model carries explicit fuel, which any fuel of at least the number
of distinct include names makes exact. -/
def assign_permission : Nat → List (String × JValue) → String → Permission →
    List Permission → Bool → Option (List String) →
    Except String (List (String × JValue))
  | 0, _, _, _, _, _, _ => .error "recursion fuel exhausted (model artifact)"
  | fuel + 1, map, from_app, permission, permissions, handle_recursion, handled_values => do
    let map ← assignVars map permission.vars
    if handle_recursion then
      let st ← permission.includes.foldlM
        (fun (acc : List String × List (String × JValue)) perm =>
          if strContains acc.1 perm then
            -- "Recursive permission detected": warn and skip
            pure acc
          else
            let handled := acc.1 ++ [perm]
            match permissions.find? (fun p => p.id = perm) with
            | some p => do
              let m ← assign_permission fuel acc.2 from_app p permissions true (some handled)
              pure (handled, m)
            | none =>
              -- "Permission {} not found": warn and skip.  Note: the Rust code
              -- pushes onto handled_values before looking the permission up.
              pure (handled, acc.2))
        (handled_values.getD [], map)
      pure st.2
    else
      pure map

/-- Two capabilities exposing the same variable key "k". -/
def c5Perm1 : Permission := ⟨"cap1", "", "", [], [("k", .str "v1")], [], false⟩

def c5Perm2 : Permission := ⟨"cap2", "", "", [], [("k", .str "v2")], [], false⟩

/-! ### src/tera/second_stage.rs: the read_file allow-list check -/

/-- A filesystem path as its component list (`PathBuf`); `parent()` drops the
last component (`unwrap()` can only panic at the filesystem root, which
`nirvati_root.join(arg)` never produces). -/
abbrev FsPath := List String

/-- The allow-list `while` loop of `read_file` (src/tera/second_stage.rs,
lines 26-33): while `check_path` differs from the root, test whether the FULL
requested path is in `can_read_files`, and set `check_path` to the parent OF
THE FULL PATH (not of `check_path`) — both as in the source.  `none` means the
loop has not terminated within `fuel` iterations. -/
def read_file_loop (nirvati_root : FsPath) (can_read_files : List FsPath) (path : FsPath) :
    Nat → FsPath → Option Bool
  | 0, _ => none
  | fuel + 1, check_path =>
    if check_path = nirvati_root then some false
    else if can_read_files.any (fun p => p = path) then some true
    else read_file_loop nirvati_root can_read_files path fuel path.dropLast

/-- `read_file` (src/tera/second_stage.rs, lines 15-55): `fs` is the file
store, `fallback` the optional `fallback` argument; the result is `none` when
the allow-list loop never terminates. -/
def read_file (nirvati_root : FsPath) (can_read_files : List FsPath)
    (fs : FsPath → Option String) (path_arg : FsPath) (fallback : Option JValue)
    (fuel : Nat) : Option (Except String String) :=
  let path := nirvati_root ++ path_arg
  match read_file_loop nirvati_root can_read_files path fuel path with
  | none => none
  | some false => some (.error "Path is not in can_read_files")
  | some true =>
    match fs path with
    | some contents => some (.ok contents)
    | none =>
      match fallback with
      | some v =>
        match v.asStr with
        | some s => some (.ok s)
        | none => some (.error "Fallback is not a string")
      | none => some (.error "Failed to read file")

/-! ### src/main.rs: the AttemptInstall transaction -/

/-- External operations the AttemptInstall handler performs, in order. -/
inductive InstallOp where
  | createStateFile
  | saveSettings
  | readRegistry
  | generate (pass : Nat)
  | addInstalledApp
  | removeInstalledApp
  | writeTransactionResult (success : Bool)
  | restoreRegistry
deriving DecidableEq

/-- Trace semantics of `handle_cmd(Commands::AttemptInstall ..)` (src/main.rs,
lines 119-214), for an existing app directory: external effects are recorded
as operations in program order; `gen1`/`gen2`/`gen3` are the outcomes of the
three nested `Generate` passes and `app_in_new_registry` says whether the
candidate appears in the post-install registry.  Returns the operation trace
and whether the handler returns `Ok`. -/
def attempt_install (has_settings gen1 gen2 gen3 app_in_new_registry : Bool) :
    List InstallOp × Bool :=
  let ops := [InstallOp.createStateFile] ++
    (if has_settings then [InstallOp.saveSettings] else []) ++
    [InstallOp.readRegistry, InstallOp.generate 1]
  if !gen1 then
    (ops ++ [InstallOp.writeTransactionResult false], false)
  else
    let ops := ops ++ [InstallOp.addInstalledApp, InstallOp.generate 2]
    if !gen2 then
      (ops ++ [InstallOp.removeInstalledApp, InstallOp.writeTransactionResult false], false)
    else
      let ops := ops ++ [InstallOp.readRegistry,
        InstallOp.writeTransactionResult app_in_new_registry,
        InstallOp.removeInstalledApp, InstallOp.restoreRegistry, InstallOp.generate 3]
      if !gen3 then (ops ++ [InstallOp.removeInstalledApp], true)
      else (ops, true)

/-! ### src/utils.rs: find_env_vars -/

/-- The character class `[A-z1-9]` of the env-var regex (note: `A-z` spans the
ASCII range 0x41-0x7A, which includes `[ \ ] ^ _` and the backtick; `1-9`
excludes `0`). -/
def isEnvVarChar (c : Char) : Bool :=
  (decide ('A' ≤ c) && decide (c ≤ 'z')) || (decide ('1' ≤ c) && decide (c ≤ '9'))

/-- Split at the first closing brace (the lazy `.*?}` match): `some` of
`(before, after)` with `l = before ++ '\x7d' :: after`, carrying the length
certificate the termination proof of `findEnvVars` needs. -/
def breakAtRBrace : (l : List Char) →
    Option { p : List Char × List Char // p.1.length + 1 + p.2.length = l.length }
  | [] => none
  | c :: rest =>
    if c = '\x7d' then some ⟨([], rest), by simp only [List.length_nil, List.length_cons]; omega⟩
    else
      match breakAtRBrace rest with
      | some ⟨p, hp⟩ => some ⟨(c :: p.1, p.2), by simp only [List.length_cons]; omega⟩
      | none => none

/-- `simplified.splitn(2, '-')`: the part before the first dash and, when a
dash exists, the part after it (with its length certificate). -/
def breakAtDash : (l : List Char) →
    { q : List Char × Option (List Char) //
      ∀ d, q.2 = some d → q.1.length + 1 + d.length = l.length }
  | [] => ⟨([], none), by intro d hd; simp at hd⟩
  | c :: rest =>
    if c = '-' then ⟨([], some rest), by
      intro d hd
      simp only [Option.some.injEq] at hd
      subst hd
      simp only [List.length_nil, List.length_cons]
      omega⟩
    else
      match breakAtDash rest with
      | ⟨q, hq⟩ => ⟨(c :: q.1, q.2), by
          intro d hd
          have := hq d hd
          simp only [List.length_cons]
          omega⟩

/-- The scanner for the regex `\$\{.*?}|\$[A-z1-9]+` combined with
`find_env_vars`'s per-match processing (src/utils.rs, lines 34-58): matches
start at `$`; a brace alternative matches lazily up to the first `}` (its body
is split at the first `-`, the head is truncated at the first `:` and pushed,
and the tail after the dash is scanned recursively); otherwise a maximal
non-empty `[A-z1-9]+` run is pushed without its `$`.  Scanning resumes after
each match (matches do not overlap), and a `$` that starts no match is
skipped. -/
def findEnvVars (l : List Char) : List (List Char) :=
  match l with
  | [] => []
  | '$' :: rest =>
    match rest with
    | '\x7b' :: rest2 =>
      match breakAtRBrace rest2 with
      | some ⟨(body, after), hlen⟩ =>
        match breakAtDash body with
        | ⟨(pre, dashTail), hdash⟩ =>
          let main := pre.takeWhile (fun c => c ≠ ':')
          match hdp : dashTail with
          | some def_part => main :: (findEnvVars def_part ++ findEnvVars after)
          | none => main :: findEnvVars after
      | none => findEnvVars ('\x7b' :: rest2)
    | c :: rest2 =>
      if isEnvVarChar c then
        (c :: rest2.takeWhile isEnvVarChar) :: findEnvVars (rest2.dropWhile isEnvVarChar)
      else findEnvVars (c :: rest2)
    | [] => []
  | _ :: rest => findEnvVars rest
termination_by l.length
decreasing_by
  all_goals
    simp only [List.length_cons]
    first
    | omega
    | (have h2 : body.length + 1 + after.length = rest2.length := hlen
       first
       | (have h1 : pre.length + 1 + def_part.length = body.length := hdash def_part rfl
          omega)
       | omega)
    | (have h3 := (List.dropWhile_sublist isEnvVarChar (l := rest2)).length_le
       omega)

/-- `find_env_vars` (src/utils.rs): the matched variable names as strings. -/
def find_env_vars (s : String) : List String :=
  (findEnvVars s.data).map (fun cs => String.mk cs)

/-! ### src/composegenerator: manifest types -/

inductive Command where
  | simpleCmd (cmd : String)
  | arraySyntax (cmd : List String)
deriving DecidableEq

/-- `Command::get_env_vars`. -/
def Command.get_env_vars : Command → List String
  | .simpleCmd cmd => find_env_vars cmd
  | .arraySyntax cmd => cmd.bind (fun cmd_part => find_env_vars cmd_part)

/-- `StringLike` (utils.rs); the float payload is never inspected. -/
inductive StringLike where
  | str (s : String)
  | int (i : Int)
  | bool (b : Bool)
  | float
deriving DecidableEq

inductive StringOrNumber where
  | str (s : String)
  | int (i : Int)
  | float
deriving DecidableEq

inductive Dependency where
  | oneDependency (d : String)
  | alternativeDependency (ds : List String)
deriving DecidableEq

inductive StringOrMap where
  | str (s : String)
  | map (m : List (String × String))
deriving DecidableEq

/-- `PortsDefinition` (v1/types.rs); the Rust `HashMap<u16, u16>`s are
embedded as pair lists. -/
structure PortsDefinition where
  direct_tcp : List (Nat × Nat)
  tcp : List (Nat × Nat)
  http : List (Nat × Nat)
  udp : List (Nat × Nat)
deriving DecidableEq

/-- `Container` (v1/types.rs, lines 40-91). -/
structure Container where
  image : String
  user : Option String
  stop_grace_period : Option String
  stop_signal : Option String
  depends_on : Option (List String)
  restart : Option String
  init : Option Bool
  extra_hosts : Option (List String)
  working_dir : Option String
  shm_size : Option StringOrNumber
  entrypoint : Option Command
  command : Option Command
  environment : List (String × StringLike)
  cap_add : List String
  network_mode : Option String
  port : Option Nat
  port_priority : Option PortPriority
  required_ports : PortsDefinition
  mounts : List (String × StringOrMap)
  direct_tcp : Bool
  disable_caddy : Bool
deriving DecidableEq

/-- `InputMetadata` (v1/types.rs, lines 94-147). -/
structure InputMetadata where
  name : String
  version : String
  category : String
  tagline : String
  developers : List (String × String)
  description : String
  dependencies : List Dependency
  repo : List (String × String)
  support : String
  gallery : Option (List String)
  path : Option String
  default_username : Option String
  default_password : Option String
  tor_only : Bool
  update_containers : Option (List String)
  implements : Option String
  version_control : Option String
  release_notes : List (String × String)
  shared_dir : Option String
  app_yml_jinja_permissions : List String
deriving DecidableEq

structure AppYmlMetadata where
  permissions : List Permission
  jinja_config_permissions : List String
  has_permissions : List String
deriving DecidableEq

/-- `AppYml` (v1/types.rs); `services` is the `HashMap<String, Container>`
as an association list (the map's iteration order is arbitrary in Rust; all
stated facts are order-insensitive). -/
structure AppYml where
  version : Nat
  services : List (String × Container)
  metadata : AppYmlMetadata
deriving DecidableEq

structure NetworkEntry where
  ipv4_address : Option String
deriving DecidableEq

/-- `Service` (output/types.rs, lines 16-54). -/
structure Service where
  cap_add : List String
  command : Option Command
  depends_on : Option (List String)
  entrypoint : Option Command
  environment : List (String × StringLike)
  extra_hosts : Option (List String)
  hostname : Option String
  image : String
  init : Option Bool
  network_mode : Option String
  networks : Option (List (String × NetworkEntry))
  ports : List String
  restart : Option String
  stop_grace_period : Option String
  stop_signal : Option String
  user : Option String
  volumes : List String
  working_dir : Option String
  shm_size : Option StringOrNumber
deriving DecidableEq

structure ComposeSpecification where
  services : List (String × Service)
deriving DecidableEq

structure CaddyEntry where
  public_port : Nat
  internal_port : Nat
  container_name : String
  is_primary : Bool
  is_l4 : Bool
deriving DecidableEq

/-- `OutputMetadata` (composegenerator/types.rs, lines 72-126). -/
structure OutputMetadata where
  id : String
  name : String
  version : String
  category : String
  tagline : String
  developers : List (String × String)
  description : String
  dependencies : List Dependency
  has_permissions : List String
  repo : List (String × String)
  support : String
  gallery : Option (List String)
  path : Option String
  default_username : Option String
  default_password : Option String
  tor_only : Bool
  update_containers : Option (List String)
  implements : Option String
  version_control : Option String
  compatible : Bool
  port : Nat
  internal_port : Nat
  release_notes : List (String × String)
  supports_https : Bool
deriving DecidableEq

structure ResultYml where
  caddy_entries : List CaddyEntry
  spec : ComposeSpecification
  metadata : OutputMetadata
deriving DecidableEq

/-! ### src/composegenerator/v1/convert.rs -/

def ALLOWED_ENV_VARS : List String := ["API_IP", "DEVICE_HOSTNAME", "DEVICE_IP"]

/-- The `require_permission!` / `require_permission_metadata!` macros: append
the grant unless it is already present. -/
def requirePermission (has_permissions : List String) (perm_name : String) : List String :=
  if strContains has_permissions perm_name then has_permissions
  else has_permissions ++ [perm_name]

def requireMdPerm (metadata : OutputMetadata) (p : String) : OutputMetadata :=
  { metadata with has_permissions := requirePermission metadata.has_permissions p }

def requireResultPerm (result : ResultYml) (p : String) : ResultYml :=
  { result with metadata :=
      { result.metadata with
        has_permissions := requirePermission result.metadata.has_permissions p } }

/-- `s.contains("..")`. -/
def hasDotDotChars : List Char → Bool
  | a :: b :: rest => (a = '.' && b = '.') || hasDotDotChars (b :: rest)
  | _ => false

def hasDotDot (s : String) : Bool := hasDotDotChars s.data

/-- Rust `str::split(sep)` (never returns an empty list). -/
def splitOnChar (sep : Char) : List Char → List (List Char)
  | [] => [[]]
  | c :: rest =>
    if c = sep then [] :: splitOnChar sep rest
    else
      match splitOnChar sep rest with
      | s :: parts => (c :: s) :: parts
      | [] => [[c]]

def strSplit (sep : Char) (s : String) : List String :=
  (splitOnChar sep s.data).map String.mk

/-- `env_var.starts_with("APP_")`. -/
def startsWithAPPUnderscore (s : String) : Bool :=
  match s.data with
  | 'A' :: 'P' :: 'P' :: '_' :: _ => true
  | _ => false

/-- The env vars accessed by commands, entrypoints and string environment
values of every service (validate_env_access, lines 44-63). -/
def accessedEnvVars (spec : ComposeSpecification) : List String :=
  spec.services.bind (fun sv =>
    (match sv.2.command with | some cmd => cmd.get_env_vars | none => []) ++
    (match sv.2.entrypoint with | some cmd => cmd.get_env_vars | none => []) ++
    sv.2.environment.bind (fun kv =>
      match kv.2 with
      | .str v => find_env_vars v
      | _ => []))

/-- One iteration of validate_env_access's `for env_var in accessed_env_vars`
loop (convert.rs, lines 64-105); the `unreachable!()` panic is modelled as an
error. -/
def handleEnvVar (available_permissions : List (String × List Permission))
    (result : ResultYml) (env_var : String) : Except String ResultYml :=
  if strContains ALLOWED_ENV_VARS env_var then pure result
  else if startsWithAPPUnderscore env_var then
    match strSplit '_' env_var with
    | "APP" :: rest =>
      match rest with
      | [] => pure (requireResultPerm result "root")
      | app_name :: rest2 =>
        match rest2 with
        | [_] =>
          let app_permissions :=
            match available_permissions.find? (fun kv => kv.1 = app_name) with
            | some kv => kv.2
            | none => []
          match find_permission_that_matches app_name app_permissions
              result.metadata.has_permissions
              (fun perm => perm.vars.any (fun nv => nv.1 = env_var &&
                (nv.2.asStr = some ("$" ++ env_var) ||
                  nv.2.asStr = some ("$\x7b" ++ env_var ++ "\x7d")))) with
          | some permission =>
            pure (requireResultPerm result (app_name ++ "/" ++ permission.id))
          | none => pure (requireResultPerm result app_name)
        | _ => pure (requireResultPerm result "root")
    | _ => throw "unreachable"
  else pure (requireResultPerm result "root")

/-- `validate_env_access` (convert.rs, lines 40-106). -/
def validate_env_access (result : ResultYml)
    (available_permissions : List (String × List Permission)) : Except String ResultYml :=
  (accessedEnvVars result.spec).foldlM (handleEnvVar available_permissions) result

/-- One iteration of convert_mounts' `for (mount_name, target)` loop
(convert.rs, lines 114-193). -/
def convertMountStep (available_permissions : List (String × List Permission))
    (acc : Service × OutputMetadata) (mnt : String × StringOrMap) : Service × OutputMetadata :=
  let result := acc.1
  let metadata := acc.2
  match mnt.2 with
    | StringOrMap.map m =>
      if mnt.1 = "data" then
        (m.foldl (fun (res : Service) hd_cd =>
          let host_dir := hd_cd.1
          let container_dir := hd_cd.2
          if host_dir.data.contains ':' || hasDotDot host_dir ||
              container_dir.data.contains ':' || hasDotDot container_dir ||
              !(find_env_vars host_dir).isEmpty ||
              !(find_env_vars container_dir).isEmpty then
            res
          else
            { res with volumes := res.volumes ++
                ["$\x7bAPP_DATA_DIR\x7d/" ++ host_dir ++ ":" ++ container_dir] }) result,
         metadata)
      else
        -- the `_ => warn` arm: a map under any other mount name is dropped
        (result, metadata)
    | StringOrMap.str str =>
      if str.data.contains ':' || hasDotDot str ||
          mnt.1.data.contains ':' || hasDotDot mnt.1 then
        (result, metadata)
      else if mnt.1 = "jwt-pubkey" then
        ({ result with volumes := result.volumes ++ ["$\x7bJWT_PUBKEY\x7d:" ++ str] },
         metadata)
      else
        let split := strSplit '/' mnt.1
        if 2 < split.length then (result, metadata)
        else
          match split with
          | [app_name, mount_name] =>
            let app_permissions :=
              match available_permissions.find? (fun kv => kv.1 = app_name) with
              | some kv => kv.2
              | none => []
            let ideal_permission := find_permission_that_matches app_name app_permissions
              metadata.has_permissions
              (fun perm => strContains perm.files mount_name)
            let result := { result with volumes := result.volumes ++
              ["$\x7bAPPS_DATA_DIR\x7d/" ++ app_name ++ "/" ++ mount_name ++ ":" ++ str] }
            match ideal_permission with
            | some permission =>
              (result, requireMdPerm metadata (app_name ++ "/" ++ permission.id))
            | none =>
              (result, requireMdPerm metadata app_name)
          | _ =>
            -- split has a single component (Rust: `debug_assert!(split.len() == 1)`)
            ({ result with volumes := result.volumes ++
                ["$\x7bAPPS_DATA_DIR\x7d/" ++ mnt.1 ++ ":" ++ str] },
             requireMdPerm metadata mnt.1)

/-- `convert_mounts` (convert.rs, lines 108-196).  Its Rust signature is
`Result<()>`, but no path returns `Err` (malformed mounts are dropped with a
warning), so it is embedded as a pure function on the mutated state. -/
def convert_mounts (result : Service) (input_service : Container)
    (metadata : OutputMetadata)
    (available_permissions : List (String × List Permission)) : Service × OutputMetadata :=
  input_service.mounts.foldl (convertMountStep available_permissions) (result, metadata)

/-- `handle_ports` (convert.rs, lines 198-273); the `assert!` checks are
modelled as errors. -/
def handle_ports (service_name : String) (result : Service) (input_service : Container)
    (port_map : List PortMapEntry) : Except String (Service × List CaddyEntry) := do
  let st ←
    if service_name = "main" then
      match input_service.port with
      | none => throw "No main port found!"
      | some main_port =>
        match port_map.find? (fun port =>
            port.internal_port = main_port && port.container = service_name) with
        | none => throw "No port map entry found"
        | some port_map_entry =>
          if input_service.disable_caddy then
            pure ({ result with ports := result.ports ++
                [Nat.repr port_map_entry.public_port ++ ":" ++ Nat.repr main_port] },
              ([] : List CaddyEntry))
          else
            pure (result,
              [⟨port_map_entry.public_port, main_port, service_name, true,
                input_service.direct_tcp⟩])
    else pure (result, [])
  let st ← input_service.required_ports.http.foldlM
    (fun (st : Service × List CaddyEntry) pp =>
      if port_map.any (fun port =>
          port.internal_port = pp.2 && port.container = service_name) then
        pure (st.1, st.2 ++ [⟨pp.1, pp.2, service_name, false, false⟩])
      else throw "assertion failed: no port map entry") st
  let st ← input_service.required_ports.tcp.foldlM
    (fun (st : Service × List CaddyEntry) pp =>
      if port_map.any (fun port =>
          port.internal_port = pp.2 && port.container = service_name) then
        pure (st.1, st.2 ++ [⟨pp.1, pp.2, service_name, false, true⟩])
      else throw "assertion failed: no port map entry") st
  let st ← input_service.required_ports.direct_tcp.foldlM
    (fun (st : Service × List CaddyEntry) pp =>
      if port_map.any (fun port =>
          port.internal_port = pp.2 && port.container = service_name) then
        pure ({ st.1 with ports := st.1.ports ++
          [Nat.repr pp.1 ++ ":" ++ Nat.repr pp.2] }, st.2)
      else throw "assertion failed: no port map entry") st
  let st ← input_service.required_ports.udp.foldlM
    (fun (st : Service × List CaddyEntry) pp =>
      if port_map.any (fun port =>
          port.internal_port = pp.2 && port.container = service_name) then
        pure ({ st.1 with ports := st.1.ports ++
          [Nat.repr pp.1 ++ ":" ++ Nat.repr pp.2 ++ "/udp"] }, st.2)
      else throw "assertion failed: no port map entry") st
  pure st

/-- The `match capability.as_str()` body of the cap_add loop
(convert.rs, lines 358-367). -/
def capStep (res : ResultYml) (capability : String) : ResultYml :=
  if capability = "CAP_NET_RAW" then requireResultPerm res "network"
  else requireResultPerm res "root"

/-- The initial `Service` literal of the service loop (convert.rs,
lines 330-349); `..Default::default()` supplies `hostname` and `networks`. -/
def initialService (service : Container) : Service :=
    { image := service.image
      restart := service.restart
      stop_grace_period := service.stop_grace_period
      stop_signal := service.stop_signal
      user := service.user
      init := service.init
      depends_on := service.depends_on
      extra_hosts := service.extra_hosts
      working_dir := service.working_dir
      shm_size := service.shm_size
      network_mode := service.network_mode
      ports := []
      volumes := []
      cap_add := service.cap_add
      command := service.command
      entrypoint := service.entrypoint
      environment := service.environment
      hostname := none
      networks := none }

/-- The tail of the per-service loop body after the network_mode check
(convert.rs, lines 358-382). -/
def convertServiceRest (port_map : List PortMapEntry)
    (available_permissions : List (String × List Permission))
    (service_id : String) (service : Container) (result : ResultYml) :
    Except String ResultYml := do
  let result := service.cap_add.foldl capStep result
  let (result_service, md) :=
    convert_mounts (initialService service) service result.metadata available_permissions
  let result := { result with metadata := md }
  let (result_service, new_caddy_entries) ←
    handle_ports service_id result_service service port_map
  -- `result.spec.services.insert` on the BTreeMap: replace the value when the
  -- key is present, otherwise add the binding (the map's key order does not
  -- affect any stated fact)
  pure { result with
    caddy_entries := result.caddy_entries ++ new_caddy_entries,
    spec := { services :=
      if result.spec.services.any (fun kv => kv.1 = service_id) then
        result.spec.services.map (fun kv =>
          if kv.1 = service_id then (service_id, result_service) else kv)
      else result.spec.services ++ [(service_id, result_service)] } }

/-- The per-service body of convert_app_yml's `for (service_id, service)`
loop (convert.rs, lines 328-383). -/
def convertService (port_map : List PortMapEntry)
    (available_permissions : List (String × List Permission))
    (result : ResultYml) (svc : String × Container) : Except String ResultYml := do
  let service := svc.2
  let result ←
    match service.network_mode with
    | some network_mode =>
      if network_mode = "host" then pure (requireResultPerm result "network")
      else throw "Unsupported network_mode!"
    | none => pure result
  convertServiceRest port_map available_permissions svc.1 service result

/-- `convert_app_yml` (convert.rs, lines 275-386). -/
def convert_app_yml (app_id : String) (app_yml : AppYml) (metadata : InputMetadata)
    (port_map : List PortMapEntry)
    (available_permissions : List (String × List Permission)) : Except String ResultYml := do
  let main_container ←
    match app_yml.services.find? (fun kv => kv.1 = "main") with
    | some kv => pure kv.2
    | none => throw "No main container found!"
  let main_port ←
    match main_container.port with
    | some p => pure p
    | none => throw "No main port found!"
  let main_port_public ←
    match port_map.find? (fun port => port.internal_port = main_port) with
    | some e => pure e.public_port
    | none => throw "No main port found!"
  let supports_https := !main_container.direct_tcp
  let result : ResultYml :=
    { caddy_entries := []
      spec := { services := [] }
      metadata :=
        { id := app_id
          name := metadata.name
          version := metadata.version
          category := metadata.category
          tagline := metadata.tagline
          developers := metadata.developers
          description := metadata.description
          dependencies := metadata.dependencies
          has_permissions := metadata.app_yml_jinja_permissions
          repo := metadata.repo
          support := metadata.support
          gallery := metadata.gallery
          path := metadata.path
          default_username := metadata.default_username
          default_password := metadata.default_password
          tor_only := metadata.tor_only
          update_containers := metadata.update_containers
          implements := metadata.implements
          version_control := metadata.version_control
          compatible := true
          port := main_port_public
          internal_port := main_port
          release_notes := metadata.release_notes
          supports_https := supports_https } }
  let result ← app_yml.services.foldlM
    (convertService port_map available_permissions) result
  validate_env_access result available_permissions

/-- Extension order on permission lists: the old list is a prefix of the new
one (so no grant is ever removed) and freedom from duplicates is preserved. -/
def PermExt (before after : List String) : Prop :=
  (∃ t, after = before ++ t) ∧ (before.Nodup → after.Nodup)

end Nirvati

namespace Nirvati

/-! ## Theorems: strings -/

theorem charListLe_total : ∀ a b : List Char, charListLe a b = true ∨ charListLe b a = true := by
  intro a
  induction a with
  | nil => intro b; left; rfl
  | cons x xs ih =>
    intro b
    cases b with
    | nil => right; rfl
    | cons y ys =>
      simp only [charListLe]
      rcases lt_trichotomy x y with h | h | h
      · left; simp [h]
      · subst h
        simpa [lt_irrefl] using ih ys
      · right; simp [h]

theorem charListLe_trans :
    ∀ a b c : List Char, charListLe a b = true → charListLe b c = true →
      charListLe a c = true := by
  intro a
  induction a with
  | nil => intro b c _ _; rfl
  | cons x xs ih =>
    intro b c hab hbc
    cases b with
    | nil => simp [charListLe] at hab
    | cons y ys =>
      cases c with
      | nil => simp [charListLe] at hbc
      | cons z zs =>
        simp only [charListLe] at hab hbc ⊢
        rcases lt_trichotomy x y with hxy | hxy | hxy
        · rcases lt_trichotomy y z with hyz | hyz | hyz
          · simp [lt_trans hxy hyz]
          · subst hyz; simp [hxy]
          · simp [not_lt_of_gt hyz, hyz] at hbc
        · subst hxy
          rcases lt_trichotomy x z with hxz | hxz | hxz
          · simp [hxz]
          · subst hxz
            simp only [lt_irrefl, if_false] at hab hbc ⊢
            exact ih _ _ hab hbc
          · simp [not_lt_of_gt hxz, hxz] at hbc
        · simp [not_lt_of_gt hxy, hxy] at hab

theorem strLe_total (a b : String) : strLe a b = true ∨ strLe b a = true :=
  charListLe_total a.data b.data

theorem strLe_trans {a b c : String} (hab : strLe a b = true) (hbc : strLe b c = true) :
    strLe a c = true :=
  charListLe_trans a.data b.data c.data hab hbc

/-! ## Theorems: the port resolver -/

theorem portOrderLeB_total (installed : List String) (a b : PortMapEntry) :
    portOrderLeB installed a b = true ∨ portOrderLeB installed b a = true := by
  unfold portOrderLeB
  cases hai : strContains installed a.app <;> cases hbi : strContains installed b.app <;>
    simp [hai, hbi] <;> exact strLe_total a.app b.app

theorem portOrderLeB_trans (installed : List String) (a b c : PortMapEntry)
    (hab : portOrderLeB installed a b = true) (hbc : portOrderLeB installed b c = true) :
    portOrderLeB installed a c = true := by
  unfold portOrderLeB at hab hbc ⊢
  cases hai : strContains installed a.app <;> cases hbi : strContains installed b.app <;>
      cases hci : strContains installed c.app <;>
    simp [hai, hbi, hci] at hab hbc ⊢ <;> exact strLe_trans hab hbc

instance (installed : List String) : IsTotal PortMapEntry (portOrderLe installed) :=
  ⟨fun a b => portOrderLeB_total installed a b⟩

instance (installed : List String) : IsTrans PortMapEntry (portOrderLe installed) :=
  ⟨fun a b c => portOrderLeB_trans installed a b c⟩

theorem finalOrderLeB_total (a b : PortMapEntry) :
    finalOrderLeB a b = true ∨ finalOrderLeB b a = true := by
  rcases lt_trichotomy a.public_port b.public_port with hlt | heq | hgt
  · left
    simp [finalOrderLeB, Nat.ne_of_lt hlt, hlt]
  · rw [finalOrderLeB, finalOrderLeB, heq]
    simp only [beq_self_eq_true, if_true]
    exact strLe_total a.app b.app
  · right
    simp [finalOrderLeB, Nat.ne_of_lt hgt, hgt]

theorem finalOrderLeB_trans (a b c : PortMapEntry)
    (hab : finalOrderLeB a b = true) (hbc : finalOrderLeB b c = true) :
    finalOrderLeB a c = true := by
  unfold finalOrderLeB at hab hbc ⊢
  by_cases hab' : a.public_port = b.public_port <;> by_cases hbc' : b.public_port = c.public_port
  · have hac := hab'.trans hbc'
    simp only [hab', hbc', hac, beq_self_eq_true, if_true] at hab hbc ⊢
    exact strLe_trans hab hbc
  · have hac : a.public_port ≠ c.public_port := by omega
    simp only [beq_iff_eq, hbc', if_false, decide_eq_true_eq] at hbc
    simp only [beq_iff_eq, hac, if_false, decide_eq_true_eq]
    omega
  · have hac : a.public_port ≠ c.public_port := by omega
    simp only [beq_iff_eq, hab', if_false, decide_eq_true_eq] at hab
    simp only [beq_iff_eq, hac, if_false, decide_eq_true_eq]
    omega
  · simp only [beq_iff_eq, hab', hbc', if_false, decide_eq_true_eq] at hab hbc
    have hac : a.public_port ≠ c.public_port := by omega
    simp only [beq_iff_eq, hac, if_false, decide_eq_true_eq]
    omega

instance : IsTotal PortMapEntry finalOrderLe := ⟨fun a b => finalOrderLeB_total a b⟩

instance : IsTrans PortMapEntry finalOrderLe := ⟨fun a b c => finalOrderLeB_trans a b c⟩

theorem probePort_free (cache : PortCache) (p : Nat) :
    cacheContainsKey cache (probePort cache p) = false ∧
      reservedB (probePort cache p) = false := by
  induction p using probePort.induct cache with
  | case1 x hcond ih =>
    rw [probePort, dif_pos hcond]
    exact ih
  | case2 x hcond =>
    rw [probePort, dif_neg hcond]
    simp only [Bool.or_eq_true, not_or] at hcond
    exact ⟨Bool.not_eq_true _ |>.mp hcond.1, Bool.not_eq_true _ |>.mp hcond.2⟩

theorem reservedB_eq_false_iff (p : Nat) : reservedB p = false ↔ p ∉ RESERVED_PORTS := by
  simp only [reservedB, RESERVED_PORTS, List.any_eq_true, beq_iff_eq]
  constructor
  · intro h hmem
    simp only [List.mem_cons, List.not_mem_nil, or_false] at hmem
    rcases hmem with rfl | rfl
    · simp at h
    · simp at h
  · intro h
    simp only [List.mem_cons, List.not_mem_nil, or_false] at h
    simp only [Bool.eq_false_iff]
    intro hc
    simp only [List.any_eq_true, beq_iff_eq, List.mem_cons, List.not_mem_nil, or_false] at hc
    rcases hc with ⟨q, hq, rfl⟩
    rcases hq with rfl | rfl <;> simp_all

theorem mem_cacheInsert {cache : PortCache} {k : Nat} {v : PortMapEntry} {kv : Nat × PortMapEntry}
    (h : kv ∈ cacheInsert cache k v) : kv = (k, v) ∨ kv ∈ cache := by
  simp only [cacheInsert, List.mem_cons] at h
  rcases h with h | h
  · exact Or.inl h
  · exact Or.inr (List.mem_of_mem_filter h)

theorem cacheInsert_keysNodup {cache : PortCache} {k : Nat} {v : PortMapEntry}
    (h : (cache.map Prod.fst).Nodup) : ((cacheInsert cache k v).map Prod.fst).Nodup := by
  simp only [cacheInsert, List.map_cons]
  refine List.nodup_cons.mpr ⟨?_, ?_⟩
  · intro hmem
    simp only [List.mem_map] at hmem
    rcases hmem with ⟨kv, hkv, hfst⟩
    have := List.of_mem_filter hkv
    simp [hfst] at this
  · exact h.sublist (List.Sublist.map Prod.fst (List.filter_sublist cache))

theorem cacheInv_filter (cache : PortCache) (p : Nat × PortMapEntry → Bool)
    (h : CacheInv cache) : CacheInv (cache.filter p) := by
  refine ⟨?_, ?_, ?_⟩
  · intro kv hkv
    exact h.portEqKey kv (List.mem_of_mem_filter hkv)
  · exact h.keysNodup.sublist (List.Sublist.map Prod.fst (List.filter_sublist cache))
  · intro kv hkv
    exact h.keysNotReserved kv (List.mem_of_mem_filter hkv)

theorem cacheInv_insert {cache : PortCache} {k : Nat} {v : PortMapEntry}
    (h : CacheInv cache) (hv : v.public_port = k) (hk : reservedB k = false) :
    CacheInv (cacheInsert cache k v) := by
  refine ⟨?_, cacheInsert_keysNodup h.keysNodup, ?_⟩
  · intro kv hkv
    rcases mem_cacheInsert hkv with rfl | hkv'
    · exact hv
    · exact h.portEqKey kv hkv'
  · intro kv hkv
    rcases mem_cacheInsert hkv with rfl | hkv'
    · exact hk
    · exact h.keysNotReserved kv hkv'

theorem cacheInv_move {cache : PortCache} (e : PortMapEntry) (h : CacheInv cache) :
    CacheInv (moveToFreePort cache e) := by
  unfold moveToFreePort
  exact cacheInv_insert h rfl (probePort_free cache e.public_port).2

theorem stInv_handleEntry {st : ResolveState} (h : StInv st) (e : PortMapEntry) :
    StInv (handleEntry st e) := by
  obtain ⟨hc, hi⟩ := h
  unfold handleEntry
  split
  · exact ⟨hc, hi⟩
  split
  · split
    · exact ⟨cacheInv_filter _ _ hc, hi⟩
    · exact ⟨cacheInv_move e hc, hi⟩
  · rename_i hres
    split
    · rename_i other hget
      split
      · exact ⟨hc, hi⟩
      split
      · rename_i hcond
        refine ⟨hc, ?_⟩
        intro x hx
        rcases List.mem_append.mp hx with hx' | hx'
        · exact hi x hx'
        · simp only [List.mem_singleton] at hx'
          subst hx'
          simp only [Bool.and_eq_true, beq_iff_eq] at hcond
          refine ⟨hcond.2, hcond.1.1.1.1, ?_⟩
          exact Bool.not_eq_true _ |>.mp hres
      split
      · exact ⟨cacheInv_insert (cacheInv_move other hc) rfl
          (Bool.not_eq_true _ |>.mp hres), hi⟩
      split
      · exact ⟨cacheInv_filter _ _ hc, hi⟩
      split
      · split
        · exact ⟨cacheInv_insert (cacheInv_move other hc) rfl
            (Bool.not_eq_true _ |>.mp hres), hi⟩
        · exact ⟨cacheInv_move e hc, hi⟩
      · exact ⟨cacheInv_move e hc, hi⟩
    · rename_i hget
      exact ⟨cacheInv_insert hc rfl (Bool.not_eq_true _ |>.mp hres), hi⟩

theorem stInv_foldl (entries : List PortMapEntry) {st : ResolveState} (h : StInv st) :
    StInv (entries.foldl handleEntry st) := by
  induction entries generalizing st with
  | nil => exact h
  | cons e rest ih => exact ih (stInv_handleEntry h e)

theorem cache_key_inj {cache : PortCache} (h : (cache.map Prod.fst).Nodup)
    {kv1 kv2 : Nat × PortMapEntry} (h1 : kv1 ∈ cache) (h2 : kv2 ∈ cache)
    (hk : kv1.1 = kv2.1) : kv1 = kv2 := by
  induction cache with
  | nil => simp at h1
  | cons hd tl ih =>
    simp only [List.map_cons, List.nodup_cons] at h
    rcases List.mem_cons.mp h1 with rfl | h1' <;> rcases List.mem_cons.mp h2 with rfl | h2'
    · rfl
    · exact absurd (hk ▸ List.mem_map_of_mem Prod.fst h2') h.1
    · exact absurd (hk ▸ List.mem_map_of_mem Prod.fst h1') h.1
    · exact ih h.2 h1' h2'

theorem resolve_state_inv (entries : List PortMapEntry) (installed_apps : List String) :
    StInv ((List.insertionSort (portOrderLe installed_apps) entries).foldl handleEntry
      ⟨[], [], []⟩) := by
  refine stInv_foldl _ ⟨⟨?_, ?_, ?_⟩, ?_⟩ <;> simp [ImplInv]

theorem mem_resolve_result {entries : List PortMapEntry} {installed_apps : List String}
    {e : PortMapEntry} (he : e ∈ (resolve_port_conflicts entries installed_apps).1) :
    (∃ kv ∈ ((List.insertionSort (portOrderLe installed_apps) entries).foldl handleEntry
        (⟨[], [], []⟩ : ResolveState)).cache, Prod.snd kv = e) ∨
      e ∈ ((List.insertionSort (portOrderLe installed_apps) entries).foldl handleEntry
        (⟨[], [], []⟩ : ResolveState)).implementation_cache := by
  unfold resolve_port_conflicts at he
  simp only at he
  have hperm := List.perm_insertionSort finalOrderLe
    ((((List.insertionSort (portOrderLe installed_apps) entries).foldl handleEntry
      ⟨[], [], []⟩).cache.map Prod.snd) ++
      ((List.insertionSort (portOrderLe installed_apps) entries).foldl handleEntry
        ⟨[], [], []⟩).implementation_cache)
  have := hperm.mem_iff.mp he
  rcases List.mem_append.mp this with h | h
  · left
    simpa [List.mem_map] using h
  · right
    exact h

/-- C10: every row of the resolved port table has a public port that is not a
reserved port (80 or 443): reserved-port requests are bumped upward past
reserved and claimed ports or conflict their whole app, and the upward probing
for any collision skips reserved ports as well. -/
theorem claim_C10_no_reserved_public_port (entries : List PortMapEntry)
    (installed_apps : List String) (e : PortMapEntry)
    (he : e ∈ (resolve_port_conflicts entries installed_apps).1) :
    e.public_port ∉ RESERVED_PORTS := by
  have hinv := resolve_state_inv entries installed_apps
  rcases mem_resolve_result he with ⟨kv, hkv, rfl⟩ | h
  · rw [← reservedB_eq_false_iff, hinv.1.portEqKey kv hkv]
    exact hinv.1.keysNotReserved kv hkv
  · exact (reservedB_eq_false_iff _).mp (hinv.2 _ h).2.2

/-- Witness for C10: a concrete resolved row's public port is unreserved. -/
theorem claim_C10_witness :
    (⟨"app1", 3000, 3000, "main", none, .Optional⟩ : PortMapEntry).public_port ∉
      RESERVED_PORTS :=
  claim_C10_no_reserved_public_port
    [⟨"app1", 3000, 3000, "main", none, .Optional⟩] []
    ⟨"app1", 3000, 3000, "main", none, .Optional⟩ (by decide)

/-- C2 as stated fails on the code: in `c2CexEntries`, app1's reserved-port
conflict evicts only its cache rows, its implementation-sharing row keeps port
5000, and app3 then re-claims the freed port 5000 with an Optional,
implements-free request — two distinct rows share a public port although one of
them is not Required and carries no implements tag. -/
theorem claim_C2_counterexample :
    (resolve_port_conflicts c2CexEntries []).1 =
      [⟨"app1", 2, 5000, "c2", some "x", .Required⟩,
       ⟨"app3", 4, 5000, "c4", none, .Optional⟩] ∧
    (⟨"app1", 2, 5000, "c2", some "x", .Required⟩ : PortMapEntry).public_port =
      (⟨"app3", 4, 5000, "c4", none, .Optional⟩ : PortMapEntry).public_port ∧
    (⟨"app3", 4, 5000, "c4", none, .Optional⟩ : PortMapEntry).priority ≠
      PortPriority.Required ∧
    (⟨"app3", 4, 5000, "c4", none, .Optional⟩ : PortMapEntry).implements = none := by
  refine ⟨by decide, by decide, by decide, by decide⟩

/-- C2 amended: two distinct rows of the resolved output can share a public
port only if at least one of the two is an implementation-sharing row, i.e. has
priority Required and a non-empty implements tag (rows from the port-keyed
cache never collide with one another; but an implementation-sharing row keeps
its port even when the row it originally shared with is evicted by a conflict,
and the freed port may then be re-claimed by an arbitrary later request). -/
theorem claim_C2_amended (entries : List PortMapEntry) (installed_apps : List String)
    (r1 r2 : PortMapEntry)
    (h1 : r1 ∈ (resolve_port_conflicts entries installed_apps).1)
    (h2 : r2 ∈ (resolve_port_conflicts entries installed_apps).1)
    (hne : r1 ≠ r2) (hp : r1.public_port = r2.public_port) :
    (r1.priority = PortPriority.Required ∧ r1.implements.isSome = true) ∨
      (r2.priority = PortPriority.Required ∧ r2.implements.isSome = true) := by
  have hinv := resolve_state_inv entries installed_apps
  rcases mem_resolve_result h1 with ⟨kv1, hkv1, rfl⟩ | hi1
  · rcases mem_resolve_result h2 with ⟨kv2, hkv2, rfl⟩ | hi2
    · exfalso
      have e1 := hinv.1.portEqKey kv1 hkv1
      have e2 := hinv.1.portEqKey kv2 hkv2
      exact hne (congrArg Prod.snd
        (cache_key_inj hinv.1.keysNodup hkv1 hkv2 (by rw [← e1, ← e2]; exact hp)))
    · exact Or.inr ⟨(hinv.2 _ hi2).1, (hinv.2 _ hi2).2.1⟩
  · exact Or.inl ⟨(hinv.2 _ hi1).1, (hinv.2 _ hi1).2.1⟩

/-- Witness for the amended C2 at the concrete colliding pair of `c2CexEntries`. -/
theorem claim_C2_witness :
    ((⟨"app1", 2, 5000, "c2", some "x", .Required⟩ : PortMapEntry).priority =
          PortPriority.Required ∧
        (⟨"app1", 2, 5000, "c2", some "x", .Required⟩ : PortMapEntry).implements.isSome =
          true) ∨
      ((⟨"app3", 4, 5000, "c4", none, .Optional⟩ : PortMapEntry).priority =
          PortPriority.Required ∧
        (⟨"app3", 4, 5000, "c4", none, .Optional⟩ : PortMapEntry).implements.isSome =
          true) :=
  claim_C2_amended c2CexEntries []
    ⟨"app1", 2, 5000, "c2", some "x", .Required⟩
    ⟨"app3", 4, 5000, "c4", none, .Optional⟩
    (by decide) (by decide) (by decide) (by decide)

/-- C7: the resolver's processing order is fully deterministic — the list the
resolver folds over is the input re-ordered so that installed apps come first
and each group is alphabetical by app id (`portOrderLe`), and it is a
permutation of the input; in the concrete scenario of two Required requests
for the non-reserved port 81 where app2 is installed, app2's row survives and
app1 is marked conflicted with all of its rows evicted. -/
theorem claim_C7_processing_order :
    (∀ (entries : List PortMapEntry) (installed_apps : List String),
      List.Sorted (portOrderLe installed_apps)
          (List.insertionSort (portOrderLe installed_apps) entries) ∧
        (List.insertionSort (portOrderLe installed_apps) entries).Perm entries) ∧
      resolve_port_conflicts
          [⟨"app1", 81, 81, "container1", none, .Required⟩,
           ⟨"app2", 81, 81, "container2", none, .Required⟩] ["app2"] =
        ([⟨"app2", 81, 81, "container2", none, .Required⟩], ["app1"]) := by
  refine ⟨fun entries installed_apps =>
    ⟨List.sorted_insertionSort _ _, List.perm_insertionSort _ _⟩, ?_⟩
  decide

/-! ## Theorems: the dependency orderer -/

theorem strContains_iff (l : List String) (s : String) : strContains l s = true ↔ s ∈ l := by
  simp [strContains, List.any_eq_true]

theorem node_id_inj {N : List Node} (hids : (N.map Node.id).Nodup) {n1 n2 : Node}
    (h1 : n1 ∈ N) (h2 : n2 ∈ N) (h : n1.id = n2.id) : n1 = n2 := by
  induction N with
  | nil => simp at h1
  | cons hd tl ih =>
    simp only [List.map_cons, List.nodup_cons] at hids
    rcases List.mem_cons.mp h1 with rfl | h1' <;> rcases List.mem_cons.mp h2 with rfl | h2'
    · rfl
    · exact absurd (h ▸ List.mem_map_of_mem Node.id h2') hids.1
    · exact absurd (h ▸ List.mem_map_of_mem Node.id h1') hids.1
    · exact ih hids.2 h1' h2'

theorem kahnInv_emit {N : List Node} (hids : (N.map Node.id).Nodup)
    {cur : List String} {kept rest : List Node} {m : Node}
    (h : KahnInv N cur (kept ++ m :: rest))
    (hm : ∀ d ∈ m.dependencies, d ∈ cur) :
    KahnInv N (cur ++ [m.id]) (kept ++ rest) := by
  have hmm : m ∈ kept ++ m :: rest := by simp
  obtain ⟨n, hnN, hnid, hsub, hmiss⟩ := h.remOrig m hmm
  have hall : ∀ d ∈ n.dependencies, d ∈ cur := by
    intro d hd
    by_cases hdm : d ∈ m.dependencies
    · exact hm d hdm
    · exact hmiss d hd hdm
  have hfresh := h.remFresh m hmm
  have hmapsplit : (kept ++ m :: rest).map Node.id =
      kept.map Node.id ++ m.id :: rest.map Node.id := by simp
  have hmid : m.id ∉ (kept ++ rest).map Node.id ∧ ((kept ++ rest).map Node.id).Nodup := by
    have h2 := h.remNodup
    rw [hmapsplit] at h2
    have h3 := List.nodup_middle.mp h2
    rw [List.nodup_cons] at h3
    simpa using h3
  refine ⟨?_, ?_, ?_, ?_, ?_, ?_, ?_⟩
  · rw [List.nodup_append]
    refine ⟨h.sortedNodup, List.nodup_singleton _, ?_⟩
    intro x hx
    simp only [List.mem_singleton]
    intro hxm
    exact hfresh (hxm ▸ hx)
  · intro x hx
    rcases List.mem_append.mp hx with hx | hx
    · exact h.sortedGrounded x hx
    · simp only [List.mem_singleton] at hx
      subst hx
      exact hnid ▸ Grounded.intro n hnN (fun d hd => h.sortedGrounded d (hall d hd))
  · intro n' hn' i hi hget d hd
    by_cases hcase : i < cur.length
    · have hgl : (cur ++ [m.id]).get ⟨i, hi⟩ = cur.get ⟨i, hcase⟩ := by
        rw [List.get_append i hcase]
      rw [List.take_append_of_le_length (Nat.le_of_lt hcase)]
      exact h.sortedOrdered n' hn' i hcase (hgl ▸ hget) d hd
    · have hieq : i = cur.length := by
        have := hi
        simp only [List.length_append, List.length_singleton] at this
        omega
      subst hieq
      have hgl : (cur ++ [m.id]).get ⟨cur.length, hi⟩ = m.id := by
        simp [List.get_append_right]
      have hn'eq : n' = n := node_id_inj hids hn' hnN (by rw [← hget, hgl, hnid])
      subst hn'eq
      rw [List.take_left]
      exact hall d hd
  · intro m'' hm''
    have : m'' ∈ kept ++ m :: rest := by
      rcases List.mem_append.mp hm'' with hx | hx
      · exact List.mem_append_left _ hx
      · exact List.mem_append_right _ (List.mem_cons_of_mem _ hx)
    obtain ⟨n'', hn'', hid'', hsub'', hmiss''⟩ := h.remOrig m'' this
    exact ⟨n'', hn'', hid'', hsub'', fun d hd hnd => List.mem_append_left _ (hmiss'' d hd hnd)⟩
  · exact hmid.2
  · intro m'' hm''
    have hin : m''.id ∈ (kept ++ rest).map Node.id := List.mem_map_of_mem Node.id hm''
    have hold : m''.id ∉ cur := h.remFresh m'' (by
      rcases List.mem_append.mp hm'' with hx | hx
      · exact List.mem_append_left _ hx
      · exact List.mem_append_right _ (List.mem_cons_of_mem _ hx))
    intro hc
    rcases List.mem_append.mp hc with hx | hx
    · exact hold hx
    · simp only [List.mem_singleton] at hx
      exact hmid.1 (hx ▸ hin)
  · intro n' hn'
    rcases h.cover n' hn' with hc | hc
    · exact Or.inl (List.mem_append_left _ hc)
    · rw [hmapsplit] at hc
      rcases List.mem_append.mp hc with hx | hx
      · exact Or.inr (by rw [List.map_append]; exact List.mem_append_left _ hx)
      · rcases List.mem_cons.mp hx with hx | hx
        · exact Or.inl (List.mem_append_right _ (by simp [hx]))
        · exact Or.inr (by rw [List.map_append]; exact List.mem_append_right _ hx)

theorem kahnInv_keep {N : List Node} {cur : List String} {kept rest : List Node} {m : Node}
    (h : KahnInv N cur (kept ++ m :: rest)) (m' : Node)
    (hid : m'.id = m.id) (hsub : m'.dependencies ⊆ m.dependencies)
    (hmiss : ∀ d ∈ m.dependencies, d ∉ m'.dependencies → d ∈ cur) :
    KahnInv N cur ((kept ++ [m']) ++ rest) := by
  have hmapeq : ((kept ++ [m']) ++ rest).map Node.id = (kept ++ m :: rest).map Node.id := by
    simp [hid]
  refine ⟨h.sortedNodup, h.sortedGrounded, h.sortedOrdered, ?_, ?_, ?_, ?_⟩
  · intro m'' hm''
    rcases List.mem_append.mp hm'' with hx | hx
    · rcases List.mem_append.mp hx with hx' | hx'
      · exact h.remOrig m'' (List.mem_append_left _ hx')
      · simp only [List.mem_singleton] at hx'
        subst hx'
        obtain ⟨n, hnN, hnid, hsubm, hmissm⟩ := h.remOrig m (by simp)
        refine ⟨n, hnN, by rw [hnid, hid], fun d hd => hsubm (hsub hd), ?_⟩
        intro d hd hnd
        by_cases hdm : d ∈ m.dependencies
        · exact hmiss d hdm hnd
        · exact hmissm d hd hdm
    · exact h.remOrig m'' (List.mem_append_right _ (List.mem_cons_of_mem _ hx))
  · rw [hmapeq]
    exact h.remNodup
  · intro m'' hm''
    rcases List.mem_append.mp hm'' with hx | hx
    · rcases List.mem_append.mp hx with hx' | hx'
      · exact h.remFresh m'' (List.mem_append_left _ hx')
      · simp only [List.mem_singleton] at hx'
        subst hx'
        rw [hid]
        exact h.remFresh m (by simp)
    · exact h.remFresh m'' (List.mem_append_right _ (List.mem_cons_of_mem _ hx))
  · intro n' hn'
    rcases h.cover n' hn' with hc | hc
    · exact Or.inl hc
    · exact Or.inr (hmapeq ▸ hc)

theorem passFold_emit {cur : List String} {kept : List Node} {m : Node}
    (hcase : (stripNode cur m).dependencies.isEmpty = true) :
    passFold (cur, kept) m = (cur ++ [m.id], kept) := by
  show (if (stripNode cur m).dependencies.isEmpty = true
      then (cur ++ [(stripNode cur m).id], kept)
      else (cur, kept ++ [stripNode cur m])) = (cur ++ [m.id], kept)
  rw [if_pos hcase]
  rfl

theorem passFold_keep {cur : List String} {kept : List Node} {m : Node}
    (hcase : (stripNode cur m).dependencies.isEmpty = false) :
    passFold (cur, kept) m = (cur, kept ++ [stripNode cur m]) := by
  show (if (stripNode cur m).dependencies.isEmpty = true
      then (cur ++ [(stripNode cur m).id], kept)
      else (cur, kept ++ [stripNode cur m])) = (cur, kept ++ [stripNode cur m])
  rw [if_neg (by simp [hcase])]

theorem stripNode_strips {cur : List String} {m : Node}
    (hcase : (stripNode cur m).dependencies.isEmpty = true) :
    ∀ d ∈ m.dependencies, d ∈ cur := by
  intro d hd
  have hempty : (stripNode cur m).dependencies = [] := by simpa using hcase
  cases hsc : strContains cur d with
  | false =>
    exfalso
    have : d ∈ (stripNode cur m).dependencies :=
      List.mem_filter.mpr ⟨hd, by simp [hsc]⟩
    rw [hempty] at this
    simp at this
  | true => exact (strContains_iff _ _).mp hsc

theorem passAux_inv {N : List Node} (hids : (N.map Node.id).Nodup) :
    ∀ (todo kept : List Node) (cur : List String),
      KahnInv N cur (kept ++ todo) →
      KahnInv N (todo.foldl passFold (cur, kept)).1 (todo.foldl passFold (cur, kept)).2 := by
  intro todo
  induction todo with
  | nil =>
    intro kept cur h
    simpa using h
  | cons m rest ih =>
    intro kept cur h
    rw [List.foldl_cons]
    cases hcase : (stripNode cur m).dependencies.isEmpty
    · rw [passFold_keep hcase]
      apply ih
      refine kahnInv_keep h (stripNode cur m) rfl (List.filter_sublist _).subset ?_
      intro d hd hnd
      have hnb : ¬ ((!strContains cur d) = true) := fun hb =>
        hnd (List.mem_filter.mpr ⟨hd, hb⟩)
      cases hsc : strContains cur d with
      | false => exact absurd (by simp [hsc]) hnb
      | true => exact (strContains_iff _ _).mp hsc
    · rw [passFold_emit hcase]
      apply ih
      exact kahnInv_emit hids h (stripNode_strips hcase)

theorem passAux_len_le : ∀ (todo kept : List Node) (cur : List String),
    ((todo.foldl passFold (cur, kept)).2).length ≤ kept.length + todo.length := by
  intro todo
  induction todo with
  | nil => intro kept cur; simp
  | cons m rest ih =>
    intro kept cur
    rw [List.foldl_cons]
    cases hcase : (stripNode cur m).dependencies.isEmpty
    · rw [passFold_keep hcase]
      have := ih (kept ++ [stripNode cur m]) cur
      simp only [List.length_append, List.length_singleton, List.length_cons,
        List.length_nil] at this ⊢
      omega
    · rw [passFold_emit hcase]
      have := ih kept (cur ++ [m.id])
      simp only [List.length_cons] at this ⊢
      omega

theorem passAux_stuck : ∀ (todo kept : List Node) (cur : List String),
    ((todo.foldl passFold (cur, kept)).2).length = kept.length + todo.length →
    (todo.foldl passFold (cur, kept)).1 = cur ∧
      ∀ m ∈ todo, ∃ d ∈ m.dependencies, d ∉ cur := by
  intro todo
  induction todo with
  | nil =>
    intro kept cur _
    exact ⟨rfl, by simp⟩
  | cons m rest ih =>
    intro kept cur hlen
    rw [List.foldl_cons] at hlen ⊢
    cases hcase : (stripNode cur m).dependencies.isEmpty
    · rw [passFold_keep hcase] at hlen ⊢
      have hlen' : ((rest.foldl passFold (cur, kept ++ [stripNode cur m])).2).length =
          (kept ++ [stripNode cur m]).length + rest.length := by
        simp only [List.length_append, List.length_singleton, List.length_cons,
          List.length_nil] at hlen ⊢
        omega
      obtain ⟨h1, h2⟩ := ih (kept ++ [stripNode cur m]) cur hlen'
      refine ⟨h1, ?_⟩
      intro m'' hm''
      rcases List.mem_cons.mp hm'' with rfl | hm''
      · have hne : (stripNode cur m'').dependencies ≠ [] := by
          intro hc
          rw [hc] at hcase
          simp at hcase
        obtain ⟨d, hd⟩ := List.exists_mem_of_ne_nil _ hne
        have hd' := List.mem_filter.mp hd
        refine ⟨d, hd'.1, ?_⟩
        intro hdc
        have hb := hd'.2
        rw [(strContains_iff cur d).mpr hdc] at hb
        simp at hb
      · exact h2 m'' hm''
    · rw [passFold_emit hcase] at hlen
      have := passAux_len_le rest kept (cur ++ [m.id])
      simp only [List.length_cons] at hlen
      omega

theorem pass_inv {N : List Node} (hids : (N.map Node.id).Nodup) {sorted : List String}
    {rem : List Node} (h : KahnInv N sorted rem) :
    KahnInv N (sortPass sorted rem).1 (sortPass sorted rem).2 :=
  passAux_inv hids rem [] sorted (by simpa using h)

theorem sortLoop_out {N : List Node} (hids : (N.map Node.id).Nodup) :
    ∀ (k : Nat) (rem : List Node), rem.length ≤ k → ∀ sorted : List String,
      KahnInv N sorted rem → SortedOut N (sortLoop sorted rem) := by
  intro k
  induction k with
  | zero =>
    intro rem hk sorted h
    have hrem : rem = [] := List.length_eq_zero.mp (Nat.le_zero.mp hk)
    subst hrem
    rw [sortLoop, if_pos (by simp)]
    refine ⟨h.sortedNodup, h.sortedGrounded, h.sortedOrdered, ?_⟩
    intro n hn
    rcases h.cover n hn with hc | hc
    · exact Or.inl hc
    · simp at hc
  | succ k ih =>
    intro rem hk sorted h
    rw [sortLoop]
    cases hrem : rem.isEmpty
    · rw [if_neg (by simp [hrem])]
      simp only
      by_cases hlt : (sortPass sorted rem).2.length < rem.length
      · rw [dif_pos hlt]
        exact ih (sortPass sorted rem).2 (by omega) (sortPass sorted rem).1 (pass_inv hids h)
      · rw [dif_neg hlt]
        have hle : (sortPass sorted rem).2.length ≤ rem.length := by
          have := passAux_len_le rem [] sorted
          simpa [sortPass] using this
        have heq : ((rem.foldl passFold (sorted, [])).2).length =
            ([] : List Node).length + rem.length := by
          simp only [List.length_nil, Nat.zero_add]
          simp only [sortPass] at hle hlt
          omega
        obtain ⟨h1, hstuck⟩ := passAux_stuck rem [] sorted heq
        have hp1 : (sortPass sorted rem).1 = sorted := h1
        rw [hp1]
        refine ⟨h.sortedNodup, h.sortedGrounded, h.sortedOrdered, ?_⟩
        intro n hn
        rcases h.cover n hn with hc | hc
        · exact Or.inl hc
        · right
          rcases List.mem_map.mp hc with ⟨m, hmrem, hmid⟩
          obtain ⟨d, hd, hdnot⟩ := hstuck m hmrem
          obtain ⟨n'', hn''N, hn''id, hsub, _⟩ := h.remOrig m hmrem
          have hnn : n'' = n := node_id_inj hids hn''N hn (by rw [hn''id, hmid])
          subst hnn
          exact ⟨d, hsub hd, hdnot⟩
    · rw [if_pos (by simp [hrem])]
      have hrem' : rem = [] := by simpa using hrem
      subst hrem'
      refine ⟨h.sortedNodup, h.sortedGrounded, h.sortedOrdered, ?_⟩
      intro n hn
      rcases h.cover n hn with hc | hc
      · exact Or.inl hc
      · simp at hc

theorem initAux_inv {N : List Node} (hids : (N.map Node.id).Nodup) :
    ∀ (todo kept : List Node) (cur : List String),
      KahnInv N cur (kept ++ todo) →
      KahnInv N (todo.foldl initFold (cur, kept)).1 (todo.foldl initFold (cur, kept)).2 := by
  intro todo
  induction todo with
  | nil =>
    intro kept cur h
    simpa using h
  | cons m rest ih =>
    intro kept cur h
    rw [List.foldl_cons]
    cases hcase : m.dependencies.isEmpty
    · have hstep : initFold (cur, kept) m = (cur, kept ++ [m]) := by
        show (if m.dependencies.isEmpty = true then (cur ++ [m.id], kept)
          else (cur, kept ++ [m])) = (cur, kept ++ [m])
        rw [if_neg (by simp [hcase])]
      rw [hstep]
      apply ih
      exact kahnInv_keep h m rfl (fun d hd => hd) (fun d hd hnd => absurd hd hnd)
    · have hstep : initFold (cur, kept) m = (cur ++ [m.id], kept) := by
        show (if m.dependencies.isEmpty = true then (cur ++ [m.id], kept)
          else (cur, kept ++ [m])) = (cur ++ [m.id], kept)
        rw [if_pos hcase]
      rw [hstep]
      apply ih
      apply kahnInv_emit hids h
      intro d hd
      rw [List.isEmpty_iff.mp hcase] at hd
      simp at hd

theorem kahnInv_start {N : List Node} (hids : (N.map Node.id).Nodup) :
    KahnInv N [] (List.insertionSort nodeIdLe N) := by
  have hperm := List.perm_insertionSort nodeIdLe N
  refine ⟨List.nodup_nil, by simp, by simp, ?_, ?_, by simp, ?_⟩
  · intro m hm
    exact ⟨m, hperm.mem_iff.mp hm, rfl, fun d hd => hd, fun d hd hnd => absurd hd hnd⟩
  · exact ((hperm.map Node.id).nodup_iff).mpr hids
  · intro n hn
    exact Or.inr (List.mem_map_of_mem Node.id (hperm.mem_iff.mpr hn))

theorem sort_deps_out {N : List Node} (hids : (N.map Node.id).Nodup) :
    SortedOut N (sort_deps N) := by
  have hstart := kahnInv_start hids
  have hinit := initAux_inv hids (List.insertionSort nodeIdLe N) [] []
    (by simpa using hstart)
  exact sortLoop_out hids
    ((List.insertionSort nodeIdLe N).foldl initFold ([], [])).2.length _ le_rfl _ hinit

theorem grounded_edge {N : List Node} (hids : (N.map Node.id).Nodup) {x y : String}
    (hg : Grounded N x) (he : Edge N x y) : Grounded N y := by
  cases hg with
  | intro n hn hdeps =>
    obtain ⟨n', hn', hid, hy⟩ := he
    have hnn : n' = n := node_id_inj hids hn' hn hid
    subst hnn
    exact hdeps y hy

theorem grounded_rtg {N : List Node} (hids : (N.map Node.id).Nodup) {x y : String}
    (hg : Grounded N x) (hr : Relation.ReflTransGen (Edge N) x y) : Grounded N y := by
  induction hr with
  | refl => exact hg
  | tail _ hlast ih => exact grounded_edge hids ih hlast

theorem grounded_no_cycle {N : List Node} (hids : (N.map Node.id).Nodup) {x : String}
    (hg : Grounded N x) : ¬ Reaches N x x := by
  induction hg with
  | intro n hn hdeps ih =>
    intro hr
    rcases Relation.TransGen.head'_iff.mp hr with ⟨d, hed, hrtg⟩
    obtain ⟨n', hn', hid, hd⟩ := hed
    have hnn : n' = n := node_id_inj hids hn' hn hid
    subst hnn
    exact ih d hd (Relation.TransGen.tail' hrtg ⟨n', hn', rfl, hd⟩)

theorem grounded_mem_of_saturated {N : List Node} {out : List String}
    (hsat : ∀ n ∈ N, n.id ∈ out ∨ ∃ d ∈ n.dependencies, d ∉ out) {x : String}
    (hg : Grounded N x) : x ∈ out := by
  induction hg with
  | intro n hn _ ih =>
    rcases hsat n hn with h | ⟨d, hd, hdo⟩
    · exact h
    · exact absurd (ih d hd) hdo

theorem grounded_of_linear {N : List Node}
    (hclosed : ∀ n ∈ N, ∀ d ∈ n.dependencies, ∃ n' ∈ N, n'.id = d)
    (L : List String)
    (hL : ∀ n ∈ N, ∀ d ∈ n.dependencies, L.indexOf d < L.indexOf n.id) :
    ∀ n ∈ N, Grounded N n.id := by
  have main : ∀ k, ∀ n ∈ N, L.indexOf n.id < k → Grounded N n.id := by
    intro k
    induction k with
    | zero => intro n _ h; exact absurd h (Nat.not_lt_zero _)
    | succ k ih =>
      intro n hn hlt
      refine Grounded.intro n hn ?_
      intro d hd
      obtain ⟨n', hn', hid⟩ := hclosed n hn d hd
      have h1 := hL n hn d hd
      have h2 : L.indexOf n'.id < k := by rw [hid]; omega
      have := ih n' hn' h2
      rwa [hid] at this
  intro n hn
  exact main (L.indexOf n.id + 1) n hn (Nat.lt_succ_self _)

theorem indexOf_lt_of_mem_take {l : List String} {d : String} {i : Nat}
    (h : d ∈ l.take i) : l.indexOf d < i := by
  induction l generalizing i with
  | nil => simp at h
  | cons x xs ih =>
    cases i with
    | zero => simp at h
    | succ j =>
      rw [List.take_succ_cons] at h
      by_cases hdx : d = x
      · subst hdx
        rw [List.indexOf_cons_self]
        exact Nat.succ_pos _
      · rcases List.mem_cons.mp h with hc | hc
        · exact absurd hc hdx
        · rw [List.indexOf_cons_ne _ (fun hc2 => hdx hc2.symm)]
          exact Nat.succ_lt_succ (ih hc)

theorem nodup_indexOf_get {out : List String} (h : out.Nodup) {i : Nat}
    (hi : i < out.length) : out.indexOf (out.get ⟨i, hi⟩) = i := by
  induction out generalizing i with
  | nil => simp at hi
  | cons x xs ih =>
    rcases List.nodup_cons.mp h with ⟨hx, hxs⟩
    cases i with
    | zero => simp [List.indexOf_cons_self]
    | succ j =>
      have hj : j < xs.length := by simpa using hi
      have hget : (x :: xs).get ⟨j + 1, hi⟩ = xs.get ⟨j, hj⟩ := rfl
      rw [hget, List.indexOf_cons_ne, ih hxs hj]
      intro hc
      exact hx (hc ▸ List.get_mem xs j hj)

/-- C3 as stated fails on the code: the input `[{a, deps [b]}]` has distinct
ids and an acyclic dependency graph ("a" is on no cycle, and "b" names no
node at all), yet `sort_deps` outputs nothing — "a" is dropped because its
dangling dependency "b" can never be emitted, so "a" does not appear exactly
once in the output. -/
theorem claim_C3_counterexample :
    (c3CexNodes.map Node.id).Nodup ∧ ¬ Reaches c3CexNodes "a" "a" ∧
      "a" ∈ c3CexNodes.map Node.id ∧ sort_deps c3CexNodes = [] := by
  have hedge : ∀ x y, Edge c3CexNodes x y → x = "a" ∧ y = "b" := by
    intro x y he
    obtain ⟨n, hn, hx, hy⟩ := he
    simp only [c3CexNodes, List.mem_singleton] at hn
    subst hn
    simp only at hy
    rcases List.mem_singleton.mp hy with rfl
    exact ⟨hx.symm, rfl⟩
  refine ⟨by decide, ?_, by decide, ?_⟩
  · intro h
    rcases Relation.TransGen.head'_iff.mp h with ⟨b, hab, hba⟩
    have hb := (hedge _ _ hab).2
    subst hb
    rcases Relation.ReflTransGen.cases_head hba with heq | ⟨c, hbc, _⟩
    · exact absurd heq (by decide)
    · exact absurd (hedge _ _ hbc).1 (by decide)
  · show sortLoop [] [⟨"a", ["b"]⟩] = []
    rw [sortLoop]
    norm_num [sortPass, passFold, stripNode, strContains]

/-- C3 amended: for input nodes with distinct ids, `sort_deps` never fails and
outputs exactly the grounded ids (those whose dependencies hereditarily name
emitted nodes), each exactly once, each preceded by all its dependencies; every
cycle participant, and every node with a path to one, is absent; and when
every dependency names an input node and the graph is acyclic (it admits a
linear extension), every id appears exactly once in the output. -/
theorem claim_C3_amended (N : List Node) (hids : (N.map Node.id).Nodup) :
    (sort_deps N).Nodup ∧
    (∀ x ∈ sort_deps N, Grounded N x) ∧
    (∀ x, Grounded N x → x ∈ sort_deps N) ∧
    (∀ n ∈ N, n.id ∈ sort_deps N → ∀ d ∈ n.dependencies,
      d ∈ sort_deps N ∧ (sort_deps N).indexOf d < (sort_deps N).indexOf n.id) ∧
    (∀ x c, Relation.ReflTransGen (Edge N) x c → Reaches N c c → x ∉ sort_deps N) ∧
    ((∀ n ∈ N, ∀ d ∈ n.dependencies, ∃ n' ∈ N, n'.id = d) →
      ∀ L : List String, (∀ n ∈ N, ∀ d ∈ n.dependencies, L.indexOf d < L.indexOf n.id) →
      (sort_deps N).Perm (N.map Node.id)) := by
  obtain ⟨hnodup, hsound, hord, hsat⟩ := sort_deps_out hids
  refine ⟨hnodup, hsound, ?_, ?_, ?_, ?_⟩
  · intro x hg
    exact grounded_mem_of_saturated hsat hg
  · intro n hn hmem d hd
    rcases List.mem_iff_get.mp hmem with ⟨⟨i, hi⟩, hget⟩
    have htake := hord n hn i hi hget d hd
    have hidx : (sort_deps N).indexOf n.id = i := by
      rw [← hget]
      exact nodup_indexOf_get hnodup hi
    exact ⟨List.take_subset i _ htake, hidx ▸ indexOf_lt_of_mem_take htake⟩
  · intro x c hrtg hcyc hmem
    have hgx := hsound x hmem
    exact grounded_no_cycle hids (grounded_rtg hids hgx hrtg) hcyc
  · intro hclosed L hL
    have hall := grounded_of_linear hclosed L hL
    refine (List.perm_ext_iff_of_nodup hnodup (by exact hids)).mpr ?_
    intro a
    constructor
    · intro ha
      rcases hsound a ha with ⟨n, hn, _⟩
      exact List.mem_map_of_mem Node.id hn
    · intro ha
      rcases List.mem_map.mp ha with ⟨n, hn, rfl⟩
      exact grounded_mem_of_saturated hsat (hall n hn)

/-- Witness for the amended C3 at a concrete one-node input. -/
theorem claim_C3_witness : (sort_deps [⟨"c", []⟩]).Nodup :=
  (claim_C3_amended [⟨"c", []⟩] (by decide)).1

/-! ## Theorems: permission matching -/

theorem charListLe_refl : ∀ a : List Char, charListLe a a = true := by
  intro a
  induction a with
  | nil => rfl
  | cons x xs ih => simp [charListLe, lt_irrefl, ih]

theorem permMatchLeB_iff (a b : Permission) :
    permMatchLeB a b = true ↔
      (a.includes.length < b.includes.length ∨
        (a.includes.length = b.includes.length ∧ strLe a.id b.id = true)) := by
  unfold permMatchLeB
  rcases lt_trichotomy a.includes.length b.includes.length with h | h | h
  · simp [h]
  · simp [h, lt_irrefl]
  · simp [h, not_lt_of_gt h, Nat.ne_of_gt h]

theorem permMatchLeB_total (a b : Permission) :
    permMatchLeB a b = true ∨ permMatchLeB b a = true := by
  rcases lt_trichotomy a.includes.length b.includes.length with h | h | h
  · exact Or.inl ((permMatchLeB_iff a b).mpr (Or.inl h))
  · rcases strLe_total a.id b.id with hs | hs
    · exact Or.inl ((permMatchLeB_iff a b).mpr (Or.inr ⟨h, hs⟩))
    · exact Or.inr ((permMatchLeB_iff b a).mpr (Or.inr ⟨h.symm, hs⟩))
  · exact Or.inr ((permMatchLeB_iff b a).mpr (Or.inl h))

theorem permMatchLeB_trans (a b c : Permission)
    (hab : permMatchLeB a b = true) (hbc : permMatchLeB b c = true) :
    permMatchLeB a c = true := by
  rcases (permMatchLeB_iff a b).mp hab with h1 | ⟨h1, hs1⟩ <;>
    rcases (permMatchLeB_iff b c).mp hbc with h2 | ⟨h2, hs2⟩
  · exact (permMatchLeB_iff a c).mpr (Or.inl (by omega))
  · exact (permMatchLeB_iff a c).mpr (Or.inl (by omega))
  · exact (permMatchLeB_iff a c).mpr (Or.inl (by omega))
  · exact (permMatchLeB_iff a c).mpr (Or.inr ⟨by omega, strLe_trans hs1 hs2⟩)

instance : IsTotal Permission permMatchLe := ⟨fun a b => permMatchLeB_total a b⟩

instance : IsTrans Permission permMatchLe := ⟨fun a b c => permMatchLeB_trans a b c⟩

theorem permMatchLe_refl (a : Permission) : permMatchLe a a :=
  (permMatchLeB_iff a a).mpr (Or.inr ⟨rfl, charListLe_refl a.id.data⟩)

theorem length_ge_two_not_empty {α : Type} {l : List α} (h : 2 ≤ l.length) :
    l.isEmpty = false := by
  cases l with
  | nil => simp at h
  | cons x xs => simp

/-- C6 fails on the code as soon as "transitive includes" differs from the
direct includes count: in `c6Perms`, both "aa" and "bb" match and neither is
granted; "aa" has 4 transitive includes against "bb"'s 2, yet the code returns
"aa" because it only compares direct `includes.len()` (1 against 2). -/
theorem claim_C6_counterexample :
    find_permission_that_matches "x" c6Perms []
        (fun p => strContains p.files "f") = some c6A ∧
      strContains c6B.files "f" = true ∧
      (specTransitiveIncludes c6Perms c6B).length <
        (specTransitiveIncludes c6Perms c6A).length := by
  refine ⟨by decide, by decide, by decide⟩

/-- C6 amended: `find_permission_that_matches` returns None with no match and
the unique match when there is exactly one; among several matches it returns a
match already granted as "appName/capId" whenever one exists, and otherwise a
match minimal by direct includes count (`includes.len()`), ties broken by
lexicographically smallest capability id. -/
theorem claim_C6_matching (app_name : String) (perms : List Permission)
    (current_permissions : List String) (check : Permission → Bool) :
    (perms.filter check = [] →
      find_permission_that_matches app_name perms current_permissions check = none) ∧
    (∀ p, perms.filter check = [p] →
      find_permission_that_matches app_name perms current_permissions check = some p) ∧
    (2 ≤ (perms.filter check).length →
      (∃ q ∈ perms.filter check,
        strContains current_permissions (app_name ++ "/" ++ q.id) = true) →
      ∃ r, find_permission_that_matches app_name perms current_permissions check = some r ∧
        r ∈ perms.filter check ∧
        strContains current_permissions (app_name ++ "/" ++ r.id) = true) ∧
    (2 ≤ (perms.filter check).length →
      (∀ q ∈ perms.filter check,
        strContains current_permissions (app_name ++ "/" ++ q.id) = false) →
      ∃ r, find_permission_that_matches app_name perms current_permissions check = some r ∧
        r ∈ perms.filter check ∧
        ∀ m ∈ perms.filter check, permMatchLe r m) := by
  refine ⟨?_, ?_, ?_, ?_⟩
  · intro h
    simp [find_permission_that_matches, h]
  · intro p h
    simp [find_permission_that_matches, h]
  · intro hlen hex
    have h0 := length_ge_two_not_empty hlen
    have h1 : ¬ (perms.filter check).length = 1 := by omega
    have hsome : ((perms.filter check).find?
        (fun perm => strContains current_permissions (app_name ++ "/" ++ perm.id))).isSome := by
      rw [List.find?_isSome]
      obtain ⟨q, hq, hqg⟩ := hex
      exact ⟨q, hq, hqg⟩
    obtain ⟨r, hr⟩ := Option.isSome_iff_exists.mp hsome
    refine ⟨r, ?_, List.mem_of_find?_eq_some hr, by simpa using List.find?_some hr⟩
    simp only [find_permission_that_matches, h0, Bool.false_eq_true, if_false, h1, hr]
  · intro hlen hnone
    have h0 := length_ge_two_not_empty hlen
    have h1 : ¬ (perms.filter check).length = 1 := by omega
    have hfind : ((perms.filter check).find?
        (fun perm => strContains current_permissions (app_name ++ "/" ++ perm.id))) = none := by
      rw [List.find?_eq_none]
      intro x hx
      rw [hnone x hx]
      simp
    have hperm := List.perm_insertionSort permMatchLe (perms.filter check)
    have hlen2 : 2 ≤ (List.insertionSort permMatchLe (perms.filter check)).length := by
      rw [hperm.length_eq]
      exact hlen
    rcases hs : List.insertionSort permMatchLe (perms.filter check) with _ | ⟨r, t⟩
    · rw [hs] at hlen2
      simp at hlen2
    · refine ⟨r, ?_, ?_, ?_⟩
      · simp only [find_permission_that_matches, h0, Bool.false_eq_true, if_false, h1, hfind,
          hs]
        rfl
      · exact hperm.mem_iff.mp (hs ▸ List.mem_cons_self r t)
      · intro m hm
        have hmem : m ∈ List.insertionSort permMatchLe (perms.filter check) :=
          hperm.mem_iff.mpr hm
        rw [hs] at hmem
        have hsorted := List.sorted_insertionSort permMatchLe (perms.filter check)
        rw [hs] at hsorted
        rcases List.mem_cons.mp hmem with rfl | hmt
        · exact permMatchLe_refl m
        · exact (List.sorted_cons.mp hsorted).1 m hmt

/-! ## Theorems: assign_permission, read_file, AttemptInstall -/

/-- C5 fails on the code, which contradicts its own warning path: merging two
capabilities that both expose variable "k" first succeeds for `c5Perm1`, and
then the `assert!(map.insert(..).is_none())` fires for `c5Perm2` — the
resolution aborts (panics) instead of logging and returning normally, and the
insert had already replaced the first value before the assertion tripped. -/
theorem claim_C5_duplicate_variable_panics :
    assign_permission 9 [] "other" c5Perm1 [] false none =
      .ok [("k", JValue.str "v1")] ∧
    assign_permission 9 [("k", JValue.str "v1")] "other" c5Perm2 [] false none =
      .error "assertion failed: map.insert(key, value).is_none()" ∧
    (jmapInsert [("k", JValue.str "v1")] "k" (JValue.str "v2")).2 =
      [("k", JValue.str "v2")] :=
  ⟨rfl, rfl, rfl⟩

/-- C4 fails on the code: for a requested path nested at least two levels
below the root and absent from the allow-list, the allow-list loop re-tests
the same full path and re-assigns `check_path` to the same parent forever, so
`read_file` hangs instead of returning an error (for any finite iteration
budget the loop has not exited). -/
theorem claim_C4_read_file_hangs (fuel : Nat) :
    read_file ["r"] [] (fun _ => none) ["a", "b"] none fuel = none := by
  have hloop : ∀ (f : Nat) (c : FsPath), (c = ["r", "a", "b"] ∨ c = ["r", "a"]) →
      read_file_loop ["r"] [] ["r", "a", "b"] f c = none := by
    intro f
    induction f with
    | zero => intro c _; rfl
    | succ f ih =>
      intro c hc
      rcases hc with rfl | rfl <;>
        (rw [read_file_loop]
         rw [if_neg (by decide), if_neg (by decide)]
         exact ih _ (Or.inr rfl))
  simp only [read_file]
  rw [show (["r"] : FsPath) ++ ["a", "b"] = ["r", "a", "b"] from rfl]
  rw [hloop fuel _ (Or.inl rfl)]

/-- A supporting positive fact for C4: a path exactly on the allow-list (and
different from the root) is accepted by the loop, and `read_file` then
succeeds when the file exists. -/
theorem claim_C4_allowed_path_reads :
    read_file ["r"] [["r", "a", "b"]] (fun p => if p = ["r", "a", "b"] then some "data" else none)
      ["a", "b"] none 1 = some (.ok "data") := rfl

/-- C1 fails on the code: when the first generation pass succeeds, the
candidate is marked installed, and the second generation pass fails, the
handler removes the candidate and writes the failure `TransactionResult`, but
it neither restores the snapshot registry nor reruns a generation pass — the
registry is left as the trial wrote it. -/
theorem claim_C1_counterexample :
    InstallOp.addInstalledApp ∈ (attempt_install false true false true true).1 ∧
    InstallOp.removeInstalledApp ∈ (attempt_install false true false true true).1 ∧
    InstallOp.writeTransactionResult false ∈ (attempt_install false true false true true).1 ∧
    InstallOp.restoreRegistry ∉ (attempt_install false true false true true).1 ∧
    InstallOp.generate 3 ∉ (attempt_install false true false true true).1 ∧
    (attempt_install false true false true true).2 = false := by decide

/-- C1 amended: a `TransactionResult` is emitted on every path, and full
rollback (remove candidate, restore the snapshot registry, rerun a generation
pass) happens exactly on the trials whose two generation passes both succeed;
when the second pass fails only the candidate removal and the result record
happen, and when the first pass fails the candidate was never marked
installed and only the result record is written. -/
theorem claim_C1_amended (has_settings gen1 gen2 gen3 app_in_new_registry : Bool) :
    (InstallOp.writeTransactionResult false ∈
        (attempt_install has_settings gen1 gen2 gen3 app_in_new_registry).1 ∨
      InstallOp.writeTransactionResult true ∈
        (attempt_install has_settings gen1 gen2 gen3 app_in_new_registry).1) ∧
    (gen1 = true → gen2 = true →
      InstallOp.removeInstalledApp ∈
          (attempt_install has_settings gen1 gen2 gen3 app_in_new_registry).1 ∧
        InstallOp.restoreRegistry ∈
          (attempt_install has_settings gen1 gen2 gen3 app_in_new_registry).1 ∧
        InstallOp.generate 3 ∈
          (attempt_install has_settings gen1 gen2 gen3 app_in_new_registry).1) ∧
    (gen1 = true → gen2 = false →
      InstallOp.removeInstalledApp ∈
          (attempt_install has_settings gen1 gen2 gen3 app_in_new_registry).1 ∧
        InstallOp.restoreRegistry ∉
          (attempt_install has_settings gen1 gen2 gen3 app_in_new_registry).1 ∧
        InstallOp.generate 3 ∉
          (attempt_install has_settings gen1 gen2 gen3 app_in_new_registry).1) ∧
    (gen1 = false →
      InstallOp.addInstalledApp ∉
          (attempt_install has_settings gen1 gen2 gen3 app_in_new_registry).1 ∧
        InstallOp.restoreRegistry ∉
          (attempt_install has_settings gen1 gen2 gen3 app_in_new_registry).1) := by
  cases has_settings <;> cases gen1 <;> cases gen2 <;> cases gen3 <;>
    cases app_in_new_registry <;> exact ⟨by decide, by decide, by decide, by decide⟩

/-! ## Theorems: convert_app_yml permission accumulation -/

theorem except_pure_eq (a : α) : (pure a : Except String α) = Except.ok a := rfl

theorem except_throw_eq (e : String) : (throw e : Except String α) = Except.error e := rfl

theorem except_bind_ok (a : α) (f : α → Except String β) :
    (Except.ok a >>= f : Except String β) = f a := rfl

theorem except_bind_err (e : String) (f : α → Except String β) :
    (Except.error e >>= f : Except String β) = Except.error e := rfl

theorem permExt_refl (l : List String) : PermExt l l := ⟨⟨[], by simp⟩, id⟩

theorem permExt_trans {a b c : List String} (h1 : PermExt a b) (h2 : PermExt b c) :
    PermExt a c := by
  obtain ⟨⟨t1, rfl⟩, hn1⟩ := h1
  obtain ⟨⟨t2, rfl⟩, hn2⟩ := h2
  exact ⟨⟨t1 ++ t2, by simp⟩, fun h => hn2 (hn1 h)⟩

theorem permExt_mem {a b : List String} {x : String} (h : PermExt a b) (hx : x ∈ a) :
    x ∈ b := by
  obtain ⟨⟨t, rfl⟩, -⟩ := h
  exact List.mem_append_left _ hx

theorem requirePermission_ext (l : List String) (p : String) :
    PermExt l (requirePermission l p) := by
  unfold requirePermission
  by_cases h : strContains l p = true
  · rw [if_pos h]; exact permExt_refl l
  · rw [if_neg h]
    refine ⟨⟨[p], rfl⟩, fun hn => ?_⟩
    have hp : p ∉ l := fun hm => h ((strContains_iff l p).mpr hm)
    simp [List.nodup_append, hn, hp]

theorem requirePermission_mem (l : List String) (p : String) : p ∈ requirePermission l p := by
  unfold requirePermission
  by_cases h : strContains l p = true
  · rw [if_pos h]; exact (strContains_iff l p).mp h
  · rw [if_neg h]; simp

theorem requirePermission_of_mem (l : List String) (p : String) (h : p ∈ l) :
    requirePermission l p = l := by
  unfold requirePermission
  rw [if_pos ((strContains_iff l p).mpr h)]

theorem requirePermission_idem (l : List String) (p : String) :
    requirePermission (requirePermission l p) p = requirePermission l p :=
  requirePermission_of_mem _ _ (requirePermission_mem l p)

theorem requireMdPerm_ext (md : OutputMetadata) (p : String) :
    PermExt md.has_permissions (requireMdPerm md p).has_permissions :=
  requirePermission_ext _ _

theorem requireResultPerm_ext (res : ResultYml) (p : String) :
    PermExt res.metadata.has_permissions (requireResultPerm res p).metadata.has_permissions :=
  requirePermission_ext _ _

theorem requireResultPerm_mem (res : ResultYml) (p : String) :
    p ∈ (requireResultPerm res p).metadata.has_permissions :=
  requirePermission_mem _ _

theorem capStep_ext (res : ResultYml) (c : String) :
    PermExt res.metadata.has_permissions (capStep res c).metadata.has_permissions := by
  unfold capStep
  by_cases h : c = "CAP_NET_RAW"
  · rw [if_pos h]; exact requireResultPerm_ext res "network"
  · rw [if_neg h]; exact requireResultPerm_ext res "root"

theorem capFold_ext (caps : List String) :
    ∀ res : ResultYml,
      PermExt res.metadata.has_permissions
        ((caps.foldl capStep res)).metadata.has_permissions := by
  induction caps with
  | nil => intro res; exact permExt_refl _
  | cons c cs ih =>
    intro res
    exact permExt_trans (capStep_ext res c) (ih (capStep res c))

theorem convertMountStep_ext (avail : List (String × List Permission))
    (acc : Service × OutputMetadata) (mnt : String × StringOrMap) :
    PermExt acc.2.has_permissions ((convertMountStep avail acc mnt)).2.has_permissions := by
  unfold convertMountStep
  cases mnt.2 with
  | map m =>
    dsimp only
    split
    · exact permExt_refl _
    · exact permExt_refl _
  | str s =>
    dsimp only
    split
    · exact permExt_refl _
    · split
      · exact permExt_refl _
      · split
        · exact permExt_refl _
        · split
          · split
            · exact requireMdPerm_ext _ _
            · exact requireMdPerm_ext _ _
          · exact requireMdPerm_ext _ _

theorem convert_mounts_ext (rs : Service) (svc : Container) (md : OutputMetadata)
    (avail : List (String × List Permission)) :
    PermExt md.has_permissions (convert_mounts rs svc md avail).2.has_permissions := by
  unfold convert_mounts
  have key : ∀ (mnts : List (String × StringOrMap)) (acc : Service × OutputMetadata),
      PermExt acc.2.has_permissions
        ((mnts.foldl (convertMountStep avail) acc)).2.has_permissions := by
    intro mnts
    induction mnts with
    | nil => intro acc; exact permExt_refl _
    | cons m ms ih =>
      intro acc
      exact permExt_trans (convertMountStep_ext avail acc m) (ih _)
  exact key svc.mounts (rs, md)

theorem convertServiceRest_ext (pm : List PortMapEntry)
    (avail : List (String × List Permission)) (sid : String) (svc : Container)
    (res r : ResultYml) (h : convertServiceRest pm avail sid svc res = Except.ok r) :
    PermExt res.metadata.has_permissions r.metadata.has_permissions := by
  unfold convertServiceRest at h
  dsimp only at h
  rcases hcm : convert_mounts (initialService svc) svc
      (svc.cap_add.foldl capStep res).metadata avail with ⟨rs2, md2⟩
  rw [hcm] at h
  dsimp only at h
  cases hhp : handle_ports sid rs2 svc pm with
  | error e => rw [hhp, except_bind_err] at h; cases h
  | ok pr =>
    rw [hhp, except_bind_ok] at h
    rcases pr with ⟨rs3, ces⟩
    dsimp only at h
    rw [except_pure_eq] at h
    cases h
    refine permExt_trans (capFold_ext svc.cap_add res) ?_
    have := convert_mounts_ext (initialService svc) svc
      (svc.cap_add.foldl capStep res).metadata avail
    rw [hcm] at this
    exact this

theorem convertService_ext (pm : List PortMapEntry)
    (avail : List (String × List Permission)) (res : ResultYml)
    (svc : String × Container) (r : ResultYml)
    (h : convertService pm avail res svc = Except.ok r) :
    PermExt res.metadata.has_permissions r.metadata.has_permissions := by
  unfold convertService at h
  dsimp only at h
  cases hnm : svc.2.network_mode with
  | none =>
    rw [hnm] at h
    dsimp only at h
    rw [except_pure_eq, except_bind_ok] at h
    exact convertServiceRest_ext pm avail svc.1 svc.2 res r h
  | some nm =>
    rw [hnm] at h
    dsimp only at h
    by_cases hh : nm = "host"
    · rw [if_pos hh, except_pure_eq, except_bind_ok] at h
      exact permExt_trans (requireResultPerm_ext res "network")
        (convertServiceRest_ext pm avail svc.1 svc.2 _ r h)
    · rw [if_neg hh, except_throw_eq, except_bind_err] at h
      cases h

theorem foldlM_permExt {α : Type} (f : ResultYml → α → Except String ResultYml)
    (hf : ∀ res a r, f res a = Except.ok r →
      PermExt res.metadata.has_permissions r.metadata.has_permissions) :
    ∀ (xs : List α) (res r : ResultYml), xs.foldlM f res = Except.ok r →
      PermExt res.metadata.has_permissions r.metadata.has_permissions := by
  intro xs
  induction xs with
  | nil =>
    intro res r h
    rw [List.foldlM_nil, except_pure_eq] at h
    cases h
    exact permExt_refl _
  | cons x xs ih =>
    intro res r h
    rw [List.foldlM_cons] at h
    cases hx : f res x with
    | error e => rw [hx, except_bind_err] at h; cases h
    | ok mid =>
      rw [hx, except_bind_ok] at h
      exact permExt_trans (hf res x mid hx) (ih mid r h)

theorem handleEnvVar_ext (avail : List (String × List Permission)) (res : ResultYml)
    (v : String) (r : ResultYml) (h : handleEnvVar avail res v = Except.ok r) :
    PermExt res.metadata.has_permissions r.metadata.has_permissions := by
  unfold handleEnvVar at h
  repeat' first
    | (rw [except_pure_eq] at h; cases h;
        first | exact permExt_refl _ | exact requireResultPerm_ext _ _)
    | (rw [except_throw_eq] at h; cases h)
    | split at h
    | dsimp only at h

theorem validate_env_access_ext (res : ResultYml)
    (avail : List (String × List Permission)) (r : ResultYml)
    (h : validate_env_access res avail = Except.ok r) :
    PermExt res.metadata.has_permissions r.metadata.has_permissions := by
  unfold validate_env_access at h
  exact foldlM_permExt _ (handleEnvVar_ext avail) _ res r h

theorem convertService_badNm (pm : List PortMapEntry)
    (avail : List (String × List Permission)) (res : ResultYml)
    (svc : String × Container) (nm : String)
    (hnm : svc.2.network_mode = some nm) (hh : nm ≠ "host") :
    convertService pm avail res svc = Except.error "Unsupported network_mode!" := by
  unfold convertService
  dsimp only
  rw [hnm]
  dsimp only
  rw [if_neg hh, except_throw_eq, except_bind_err]

theorem convertService_network (pm : List PortMapEntry)
    (avail : List (String × List Permission)) (res : ResultYml)
    (svc : String × Container) (r : ResultYml) (nm : String)
    (h : convertService pm avail res svc = Except.ok r)
    (hnm : svc.2.network_mode = some nm) :
    nm = "host" ∧ "network" ∈ r.metadata.has_permissions := by
  by_cases hh : nm = "host"
  · subst hh
    refine ⟨rfl, ?_⟩
    unfold convertService at h
    dsimp only at h
    rw [hnm] at h
    dsimp only at h
    rw [if_pos rfl, except_pure_eq, except_bind_ok] at h
    exact permExt_mem (convertServiceRest_ext pm avail svc.1 svc.2 _ r h)
      (requireResultPerm_mem res "network")
  · rw [convertService_badNm pm avail res svc nm hnm hh] at h
    cases h

theorem servicesFold_network (pm : List PortMapEntry)
    (avail : List (String × List Permission)) :
    ∀ (xs : List (String × Container)) (res r : ResultYml),
      xs.foldlM (convertService pm avail) res = Except.ok r →
      ∀ sv ∈ xs, ∀ nm, sv.2.network_mode = some nm →
        nm = "host" ∧ "network" ∈ r.metadata.has_permissions := by
  intro xs
  induction xs with
  | nil => intro res r h sv hsv; exact absurd hsv (List.not_mem_nil sv)
  | cons y ys ih =>
    intro res r h sv hsv nm hnm
    rw [List.foldlM_cons] at h
    cases hy : convertService pm avail res y with
    | error e => rw [hy, except_bind_err] at h; cases h
    | ok mid =>
      rw [hy, except_bind_ok] at h
      rcases List.mem_cons.mp hsv with rfl | hmem
      · obtain ⟨hhost, hmm⟩ := convertService_network pm avail res sv mid nm hy hnm
        refine ⟨hhost, permExt_mem ?_ hmm⟩
        exact foldlM_permExt _ (convertService_ext pm avail) ys mid r h
      · exact ih mid r h sv hmem nm hnm

theorem convert_app_yml_fold (app_id : String) (app_yml : AppYml)
    (metadata : InputMetadata) (port_map : List PortMapEntry)
    (avail : List (String × List Permission)) (r : ResultYml)
    (h : convert_app_yml app_id app_yml metadata port_map avail = Except.ok r) :
    ∃ res0 mid : ResultYml,
      res0.metadata.has_permissions = metadata.app_yml_jinja_permissions ∧
      app_yml.services.foldlM (convertService port_map avail) res0 = Except.ok mid ∧
      validate_env_access mid avail = Except.ok r := by
  unfold convert_app_yml at h
  cases hmc : app_yml.services.find? (fun kv => kv.1 = "main") with
  | none => rw [hmc] at h; dsimp only at h; rw [except_throw_eq, except_bind_err] at h; cases h
  | some kv =>
    rw [hmc] at h
    dsimp only at h
    rw [except_pure_eq, except_bind_ok] at h
    cases hp : kv.2.port with
    | none => rw [hp] at h; dsimp only at h; rw [except_throw_eq, except_bind_err] at h; cases h
    | some main_port =>
      rw [hp] at h
      dsimp only at h
      rw [except_pure_eq, except_bind_ok] at h
      cases hpm : port_map.find? (fun port => port.internal_port = main_port) with
      | none => rw [hpm] at h; dsimp only at h; rw [except_throw_eq, except_bind_err] at h; cases h
      | some e =>
        rw [hpm] at h
        dsimp only at h
        rw [except_pure_eq, except_bind_ok] at h
        cases hf : app_yml.services.foldlM (convertService port_map avail)
            { caddy_entries := []
              spec := { services := [] }
              metadata :=
                { id := app_id
                  name := metadata.name
                  version := metadata.version
                  category := metadata.category
                  tagline := metadata.tagline
                  developers := metadata.developers
                  description := metadata.description
                  dependencies := metadata.dependencies
                  has_permissions := metadata.app_yml_jinja_permissions
                  repo := metadata.repo
                  support := metadata.support
                  gallery := metadata.gallery
                  path := metadata.path
                  default_username := metadata.default_username
                  default_password := metadata.default_password
                  tor_only := metadata.tor_only
                  update_containers := metadata.update_containers
                  implements := metadata.implements
                  version_control := metadata.version_control
                  compatible := true
                  port := e.public_port
                  internal_port := main_port
                  release_notes := metadata.release_notes
                  supports_https := !kv.2.direct_tcp } } with
        | error er => rw [hf, except_bind_err] at h; cases h
        | ok mid =>
          rw [hf, except_bind_ok] at h
          exact ⟨_, mid, rfl, hf, h⟩

theorem convert_network (app_id : String) (app_yml : AppYml)
    (metadata : InputMetadata) (port_map : List PortMapEntry)
    (avail : List (String × List Permission)) (r : ResultYml)
    (h : convert_app_yml app_id app_yml metadata port_map avail = Except.ok r)
    (sv : String × Container) (hsv : sv ∈ app_yml.services) (nm : String)
    (hnm : sv.2.network_mode = some nm) :
    nm = "host" ∧ strContains r.metadata.has_permissions "network" = true := by
  obtain ⟨res0, mid, -, hf, hv⟩ := convert_app_yml_fold app_id app_yml metadata
    port_map avail r h
  obtain ⟨hhost, hmm⟩ := servicesFold_network port_map avail app_yml.services
    res0 mid hf sv hsv nm hnm
  refine ⟨hhost, (strContains_iff _ _).mpr ?_⟩
  exact permExt_mem (validate_env_access_ext mid avail r hv) hmm

theorem convert_badNm (app_id : String) (app_yml : AppYml)
    (metadata : InputMetadata) (port_map : List PortMapEntry)
    (avail : List (String × List Permission))
    (sv : String × Container) (hsv : sv ∈ app_yml.services) (nm : String)
    (hnm : sv.2.network_mode = some nm) (hh : nm ≠ "host") :
    ∃ e, convert_app_yml app_id app_yml metadata port_map avail = Except.error e := by
  cases hc : convert_app_yml app_id app_yml metadata port_map avail with
  | error e => exact ⟨e, rfl⟩
  | ok r =>
    exact absurd (convert_network app_id app_yml metadata port_map avail r hc
      sv hsv nm hnm).1 hh

theorem convert_app_yml_perms (app_id : String) (app_yml : AppYml)
    (metadata : InputMetadata) (port_map : List PortMapEntry)
    (avail : List (String × List Permission)) (r : ResultYml)
    (h : convert_app_yml app_id app_yml metadata port_map avail = Except.ok r) :
    PermExt metadata.app_yml_jinja_permissions r.metadata.has_permissions := by
  obtain ⟨res0, mid, hperm, hf, hv⟩ := convert_app_yml_fold app_id app_yml metadata
    port_map avail r h
  rw [← hperm]
  exact permExt_trans (foldlM_permExt _ (convertService_ext port_map avail) _ _ _ hf)
    (validate_env_access_ext mid avail r hv)

/-- C8: every permission-recording operation of manifest assembly
(network_mode handling, raised-capability handling, mount resolution,
environment-variable validation) goes through requirePermission, which
appends the grant only when absent: it extends the list (never removes an
entry), is idempotent, and preserves freedom from duplicates; consequently
a successful convert_app_yml run returns a permission list that extends the
initial jinja-permission list and is duplicate-free whenever the initial
list was. -/
theorem claim_C8_permission_accumulation :
    (∀ (l : List String) (p : String),
        (∃ t, requirePermission l p = l ++ t) ∧
        requirePermission (requirePermission l p) p = requirePermission l p ∧
        (l.Nodup → (requirePermission l p).Nodup)) ∧
    (∀ (app_id : String) (app_yml : AppYml) (metadata : InputMetadata)
        (port_map : List PortMapEntry) (avail : List (String × List Permission))
        (r : ResultYml),
        convert_app_yml app_id app_yml metadata port_map avail = Except.ok r →
        (∃ t, r.metadata.has_permissions = metadata.app_yml_jinja_permissions ++ t) ∧
        (metadata.app_yml_jinja_permissions.Nodup → r.metadata.has_permissions.Nodup)) := by
  constructor
  · intro l p
    obtain ⟨hpre, hnd⟩ := requirePermission_ext l p
    exact ⟨hpre, requirePermission_idem l p, hnd⟩
  · intro app_id app_yml metadata port_map avail r h
    exact convert_app_yml_perms app_id app_yml metadata port_map avail r h

/-- C9: for every service of the manifest, a declared network_mode is
accepted only with the value "host", in which case the "network" permission
is recorded in the output metadata; a service declaring any other
network_mode value makes convert_app_yml return an error. -/
theorem claim_C9_network_mode_host_only :
    (∀ (app_id : String) (app_yml : AppYml) (metadata : InputMetadata)
        (port_map : List PortMapEntry) (avail : List (String × List Permission))
        (r : ResultYml),
        convert_app_yml app_id app_yml metadata port_map avail = Except.ok r →
        ∀ sv ∈ app_yml.services, ∀ nm, sv.2.network_mode = some nm →
          nm = "host" ∧ strContains r.metadata.has_permissions "network" = true) ∧
    (∀ (app_id : String) (app_yml : AppYml) (metadata : InputMetadata)
        (port_map : List PortMapEntry) (avail : List (String × List Permission)),
        ∀ sv ∈ app_yml.services, ∀ nm, sv.2.network_mode = some nm → nm ≠ "host" →
          ∃ e, convert_app_yml app_id app_yml metadata port_map avail = Except.error e) := by
  constructor
  · intro app_id app_yml metadata port_map avail r h sv hsv nm hnm
    exact convert_network app_id app_yml metadata port_map avail r h sv hsv nm hnm
  · intro app_id app_yml metadata port_map avail sv hsv nm hnm hh
    exact convert_badNm app_id app_yml metadata port_map avail sv hsv nm hnm hh

end Nirvati
